import Mathlib

/-!
Verification of the pane-encoding transcoder of tw93/kaku.

The definitions below are a shallow embedding of
`src/mux/src/pane_encoding.rs` and of the `PaneEncoding` registry in
`src/config/src/keyassignment.rs`.  Bytes are modelled as `Nat`, byte
strings as `List Nat`, and decoded Unicode strings by their UTF-8 byte
sequences.

The actual character-set conversion routines (the `encoding_rs` crate)
are an external collaborator of this repository: the spec's Codec Table
section says "the actual multi-byte tables ... are treated as an
external, well-known collaborator; this core does not reimplement the
tables, only orchestrates when and how they are invoked".  They are
therefore modelled by a `Codec` structure of abstract conversion
functions, passed in through a lookup `γ : PaneEncoding → Option Codec`
that plays the role of `get_encoding`; theorems take the documented
behaviour of the real codecs as hypotheses, and small concrete `Codec`
values faithful to the real tables on the bytes they are applied to
(checked against the repository's own tests and the WHATWG encoding
standard) are used for witnesses and counterexamples.
-/

/-- Encoding identifiers, from `PaneEncoding` in
`src/config/src/keyassignment.rs` (discriminants 0..5 in source order). -/
inductive PaneEncoding where
  | Utf8
  | Gbk
  | Gb18030
  | Big5
  | ShiftJis
  | EucKr
deriving DecidableEq, Repr, Fintype

/-- Scan states of the escape-sequence classifier, from `EscapeState`
in `src/mux/src/pane_encoding.rs`. -/
inductive EscapeState where
  | Ground
  | Esc
  | Csi
  | Osc
  | OscEsc
  | Dcs
  | DcsEsc
deriving DecidableEq, Repr

/-- Transition function `advance_escape` of `src/mux/src/pane_encoding.rs`:
given the current scan state and the next byte, the next scan state. -/
def advance_escape (state : EscapeState) (byte : Nat) : EscapeState :=
  match state with
  | .Ground => .Ground
  | .Esc =>
      if byte = 0x5b then .Csi
      else if byte = 0x5d then .Osc
      else if byte = 0x50 then .Dcs
      else if 0x40 ≤ byte ∧ byte ≤ 0x7e then .Ground
      else .Esc
  | .Csi => if 0x40 ≤ byte ∧ byte ≤ 0x7e then .Ground else .Csi
  | .Osc =>
      if byte = 0x07 then .Ground
      else if byte = 0x1b then .OscEsc
      else .Osc
  | .OscEsc => if byte = 0x5c then .Ground else .Osc
  | .Dcs => if byte = 0x1b then .DcsEsc else .Dcs
  | .DcsEsc => if byte = 0x5c then .Ground else .Dcs

/-- Entry into an escape sequence, from `begin_escape` in
`src/mux/src/pane_encoding.rs`: returns the new scan state and the new
contents of the `escape_bytes` buffer (cleared, then the byte pushed). -/
def begin_escape (byte : Nat) : EscapeState × List Nat :=
  (if byte = 0x9b then .Csi else .Esc, [byte])

/-- Effective per-byte state update applied by the decoder/encoder
loops: in `Ground` an escape introducer enters via `begin_escape` and
any other byte keeps `Ground`; outside `Ground` the byte is fed to
`advance_escape`. -/
def escStep (st : EscapeState) (b : Nat) : EscapeState :=
  if st = .Ground then
    (if b = 0x1b ∨ b = 0x9b then (begin_escape b).1 else .Ground)
  else advance_escape st b

/-- Abstract model of one `encoding_rs` encoding (the Codec Table of
the spec, an external collaborator of this repository).
`decStrict` models `decode_without_bom_handling_and_without_replacement`
(returning the UTF-8 bytes of the decoded string, or `none` on any
malformed or truncated input); `decLossy` models `Encoding::decode`
(lossy, total); `encTxt` models `Encoding::encode` applied to a valid
UTF-8 string given by its bytes. -/
structure Codec where
  decStrict : List Nat → Option (List Nat)
  decLossy : List Nat → List Nat
  encTxt : List Nat → List Nat

/-- The bound `MAX_TRAILING_ENCODED_BYTES` of
`src/mux/src/pane_encoding.rs`. -/
def MAX_TRAILING_ENCODED_BYTES : Nat := 4

/-- Helper `PaneInputEncoder::push_encoded`: converts a valid UTF-8
text run via the codec of the active encoding, or passes it through
unchanged for the identity encoding (`get_encoding` returned `None`). -/
def push_encoded (γ : PaneEncoding → Option Codec) (enc : PaneEncoding)
    (text : List Nat) : List Nat :=
  match γ enc with
  | some c => c.encTxt text
  | none => text

/-- UTF-8 validation with the exact error reporting of Rust
`std::str::from_utf8` (`Utf8Error`): `none` means the whole input is
valid; `some (v, none)` means the longest valid prefix has length `v`
and the remaining bytes are an incomplete but continuable sequence
(`error_len() = None`); `some (v, some e)` means the `e` bytes after
the valid prefix form an invalid unit (`error_len() = Some e`). -/
def utf8Err : List Nat → Option (Nat × Option Nat)
  | [] => none
  | b :: rest =>
    if b < 0x80 then
      (utf8Err rest).map (fun p => (p.1 + 1, p.2))
    else if b < 0xc2 then some (0, some 1)
    else if b < 0xe0 then
      match rest with
      | [] => some (0, none)
      | c1 :: r1 =>
        if 0x80 ≤ c1 ∧ c1 ≤ 0xbf then
          (utf8Err r1).map (fun p => (p.1 + 2, p.2))
        else some (0, some 1)
    else if b < 0xf0 then
      match rest with
      | [] => some (0, none)
      | c1 :: r1 =>
        if (b = 0xe0 ∧ 0xa0 ≤ c1 ∧ c1 ≤ 0xbf)
            ∨ (0xe1 ≤ b ∧ b ≤ 0xec ∧ 0x80 ≤ c1 ∧ c1 ≤ 0xbf)
            ∨ (b = 0xed ∧ 0x80 ≤ c1 ∧ c1 ≤ 0x9f)
            ∨ (0xee ≤ b ∧ 0x80 ≤ c1 ∧ c1 ≤ 0xbf) then
          match r1 with
          | [] => some (0, none)
          | c2 :: r2 =>
            if 0x80 ≤ c2 ∧ c2 ≤ 0xbf then
              (utf8Err r2).map (fun p => (p.1 + 3, p.2))
            else some (0, some 2)
        else some (0, some 1)
    else if b < 0xf5 then
      match rest with
      | [] => some (0, none)
      | c1 :: r1 =>
        if (b = 0xf0 ∧ 0x90 ≤ c1 ∧ c1 ≤ 0xbf)
            ∨ (0xf1 ≤ b ∧ b ≤ 0xf3 ∧ 0x80 ≤ c1 ∧ c1 ≤ 0xbf)
            ∨ (b = 0xf4 ∧ 0x80 ≤ c1 ∧ c1 ≤ 0x8f) then
          match r1 with
          | [] => some (0, none)
          | c2 :: r2 =>
            if 0x80 ≤ c2 ∧ c2 ≤ 0xbf then
              match r2 with
              | [] => some (0, none)
              | c3 :: r3 =>
                if 0x80 ≤ c3 ∧ c3 ≤ 0xbf then
                  (utf8Err r3).map (fun p => (p.1 + 4, p.2))
                else some (0, some 3)
            else some (0, some 2)
        else some (0, some 1)
    else some (0, some 1)

/-- Fuel-indexed body of `PaneInputEncoder::encode_text`'s `while`
loop over the combined buffer: on full validity the text is converted
and nothing is carried; on an incomplete trailing sequence the valid
prefix is converted and the suffix carried; on an invalid unit the
valid prefix is converted, one `?` (0x3f) emitted, and scanning
resumes after the invalid unit.  The fuel only bounds the recursion;
`encode_text` supplies enough for it never to run out. -/
def encTextLoop (γ : PaneEncoding → Option Codec) (enc : PaneEncoding) :
    Nat → List Nat → List Nat × List Nat
  | _, [] => ([], [])
  | 0, rest => ([], rest)
  | fuel + 1, rest =>
    match utf8Err rest with
    | none => (push_encoded γ enc rest, [])
    | some (v, none) =>
        ((if 0 < v then push_encoded γ enc (rest.take v) else []), rest.drop v)
    | some (v, some e) =>
        let pre := if 0 < v then push_encoded γ enc (rest.take v) else []
        let r := encTextLoop γ enc fuel (rest.drop (v + e))
        (pre ++ 0x3f :: r.1, r.2)

/-- Method `PaneInputEncoder::encode_text`: the carried-over
`pending_utf8` bytes are concatenated with the text run and the loop
above processes them; returns the emitted bytes and the new
`pending_utf8` buffer. -/
def encode_text (γ : PaneEncoding → Option Codec) (enc : PaneEncoding)
    (pending text : List Nat) : List Nat × List Nat :=
  encTextLoop γ enc (pending ++ text).length (pending ++ text)

/-- The descending prefix search of `PaneOutputDecoder::decode_text`:
tries `decStrict` on prefixes of length `split`, `split - 1`, ... down
to `minP`, returning the first cleanly decoded prefix together with its
length. -/
def decodeSearch (c : Codec) (pending : List Nat) (minP : Nat) :
    Nat → Option (List Nat × Nat)
  | 0 => none
  | k + 1 =>
    if k + 1 < minP then none
    else
      match c.decStrict (pending.take (k + 1)) with
      | some d => some (d, k + 1)
      | none => decodeSearch c pending minP k

/-- Method `PaneOutputDecoder::decode_text`: carried-over bytes are
concatenated with the text run; the longest prefix between
`len - MAX_TRAILING_ENCODED_BYTES` and `len` that decodes cleanly is
emitted and the rest carried; if none decodes, the buffer is kept when
it is at most `MAX_TRAILING_ENCODED_BYTES` bytes and otherwise
force-decoded with the lossy converter.  Returns the emitted UTF-8
bytes and the new `pending_encoded` buffer. -/
def decode_text (γ : PaneEncoding → Option Codec) (enc : PaneEncoding)
    (pendingOld input : List Nat) : List Nat × List Nat :=
  let pending := pendingOld ++ input
  match γ enc with
  | none => (pending, [])
  | some c =>
    match decodeSearch c pending
        (max (pending.length - MAX_TRAILING_ENCODED_BYTES) 1) pending.length with
    | some (d, split) => (d, pending.drop split)
    | none =>
      if pending.length ≤ MAX_TRAILING_ENCODED_BYTES then ([], pending)
      else (c.decLossy pending, [])

/-- Per-call core state of the shared byte loop of
`PaneOutputDecoder::decode` and `PaneInputEncoder::encode`: scan state,
`escape_bytes` buffer, carry-over buffer (`pending_encoded` or
`pending_utf8`), and the current text run (the slice
`data[text_start..idx]` of the source, materialised). -/
structure Core where
  st : EscapeState
  eb : List Nat
  pend : List Nat
  run : List Nat
deriving DecidableEq, Repr

/-- One iteration of the byte loop shared by `PaneOutputDecoder::decode`
and `PaneInputEncoder::encode`, parameterised by the text-run processor
(`decode_text` respectively `encode_text` with the pending buffer
threaded through).  Returns the new core state and the bytes emitted by
this iteration. -/
def procStepC (txt : List Nat → List Nat → List Nat × List Nat)
    (c : Core) (b : Nat) : Core × List Nat :=
  if c.st = .Ground ∧ (b = 0x1b ∨ b = 0x9b) then
    let fl := if c.run = [] then (([] : List Nat), c.pend) else txt c.pend c.run
    (⟨(begin_escape b).1, (begin_escape b).2, fl.2, []⟩, fl.1)
  else if c.st = .Ground then (⟨.Ground, c.eb, c.pend, c.run ++ [b]⟩, [])
  else
    let st2 := advance_escape c.st b
    let eb2 := c.eb ++ [b]
    if st2 = .Ground then (⟨.Ground, [], c.pend, []⟩, eb2)
    else (⟨st2, eb2, c.pend, c.run⟩, [])

/-- The byte loop run over a whole chunk, concatenating emissions. -/
def procGo (txt : List Nat → List Nat → List Nat × List Nat) :
    Core → List Nat → Core × List Nat
  | c, [] => (c, [])
  | c, b :: rest =>
    let s := procStepC txt c b
    let r := procGo txt s.1 rest
    (r.1, s.2 ++ r.2)

/-- End-of-call flush shared by `decode` and `encode`: if the call ends
in `Ground` with a nonempty trailing text run, the run is processed. -/
def procFinishC (txt : List Nat → List Nat → List Nat × List Nat)
    (c : Core) : Core × List Nat :=
  if c.st = .Ground ∧ c.run ≠ [] then
    let fl := txt c.pend c.run
    (⟨.Ground, c.eb, fl.2, []⟩, fl.1)
  else (c, [])

/-- A full call body: the byte loop followed by the end-of-call flush. -/
def procData (txt : List Nat → List Nat → List Nat × List Nat)
    (c0 : Core) (data : List Nat) : Core × List Nat :=
  let g := procGo txt c0 data
  let f := procFinishC txt g.1
  (f.1, g.2 ++ f.2)

/-- Instance state of `PaneOutputDecoder`. -/
structure PaneOutputDecoder where
  encoding : PaneEncoding
  state : EscapeState
  escape_bytes : List Nat
  pending_encoded : List Nat
deriving DecidableEq, Repr

/-- The `Default` instance of `PaneOutputDecoder` (a fresh decoder). -/
def PaneOutputDecoder.init : PaneOutputDecoder := ⟨.Utf8, .Ground, [], []⟩

/-- Method `PaneOutputDecoder::decode`: reset on encoding switch,
pass-through for `Utf8`, otherwise the escape-aware byte loop with
`decode_text` as text-run processor.  Returns the new instance state
and the output bytes. -/
def PaneOutputDecoder.decode (γ : PaneEncoding → Option Codec)
    (d : PaneOutputDecoder) (encoding : PaneEncoding) (data : List Nat) :
    PaneOutputDecoder × List Nat :=
  let d0 := if d.encoding = encoding then d else ⟨encoding, .Ground, [], []⟩
  if encoding = .Utf8 then (d0, data)
  else
    let r := procData (decode_text γ encoding)
      ⟨d0.state, d0.escape_bytes, d0.pending_encoded, []⟩ data
    (⟨encoding, r.1.st, r.1.eb, r.1.pend⟩, r.2)

/-- Instance state of `PaneInputEncoder`. -/
structure PaneInputEncoder where
  encoding : PaneEncoding
  state : EscapeState
  escape_bytes : List Nat
  pending_utf8 : List Nat
deriving DecidableEq, Repr

/-- The `Default` instance of `PaneInputEncoder` (a fresh encoder). -/
def PaneInputEncoder.init : PaneInputEncoder := ⟨.Utf8, .Ground, [], []⟩

/-- Method `PaneInputEncoder::encode`: reset on encoding switch,
pass-through for `Utf8`, otherwise the escape-aware byte loop with
`encode_text` as text-run processor. -/
def PaneInputEncoder.encode (γ : PaneEncoding → Option Codec)
    (d : PaneInputEncoder) (encoding : PaneEncoding) (data : List Nat) :
    PaneInputEncoder × List Nat :=
  let d0 := if d.encoding = encoding then d else ⟨encoding, .Ground, [], []⟩
  if encoding = .Utf8 then (d0, data)
  else
    let r := procData (encode_text γ encoding)
      ⟨d0.state, d0.escape_bytes, d0.pending_utf8, []⟩ data
    (⟨encoding, r.1.st, r.1.eb, r.1.pend⟩, r.2)

/-- Feed a list of chunks in order to one decoder instance and
concatenate the per-call outputs. -/
def decodeChunks (γ : PaneEncoding → Option Codec) (d : PaneOutputDecoder)
    (enc : PaneEncoding) : List (List Nat) → PaneOutputDecoder × List Nat
  | [] => (d, [])
  | x :: xs =>
    let r := d.decode γ enc x
    let rr := decodeChunks γ r.1 enc xs
    (rr.1, r.2 ++ rr.2)

/-- Feed a list of chunks in order to one encoder instance and
concatenate the per-call outputs. -/
def encodeChunks (γ : PaneEncoding → Option Codec) (d : PaneInputEncoder)
    (enc : PaneEncoding) : List (List Nat) → PaneInputEncoder × List Nat
  | [] => (d, [])
  | x :: xs =>
    let r := d.encode γ enc x
    let rr := encodeChunks γ r.1 enc xs
    (rr.1, r.2 ++ rr.2)

/-- Numeric discriminant of a `PaneEncoding`, as stored in the
`LAST_SELECTED_ENCODING` atomic of `src/config/src/keyassignment.rs`. -/
def PaneEncoding.toU8 : PaneEncoding → Nat
  | .Utf8 => 0
  | .Gbk => 1
  | .Gb18030 => 2
  | .Big5 => 3
  | .ShiftJis => 4
  | .EucKr => 5

/-- Function `PaneEncoding::from_u8`: unknown values default to `Utf8`. -/
def PaneEncoding.from_u8 (val : Nat) : PaneEncoding :=
  match val with
  | 1 => .Gbk
  | 2 => .Gb18030
  | 3 => .Big5
  | 4 => .ShiftJis
  | 5 => .EucKr
  | _ => .Utf8

/-- Constant `PaneEncoding::DEFAULT_ORDER`. -/
def DEFAULT_ORDER : List PaneEncoding :=
  [.Utf8, .Gbk, .Gb18030, .Big5, .EucKr, .ShiftJis]

/-- Function `PaneEncoding::set_last_selected`, acting on the modelled
registry state (the value of the `LAST_SELECTED_ENCODING` atomic). -/
def set_last_selected (encoding : PaneEncoding) (_st : Nat) : Nat :=
  encoding.toU8

/-- Function `PaneEncoding::ordered_list`, reading the modelled
registry state. -/
def ordered_list (st : Nat) : List PaneEncoding :=
  let last_encoding := PaneEncoding.from_u8 st
  if last_encoding ≠ .Utf8 then
    .Utf8 :: last_encoding ::
      DEFAULT_ORDER.filter (fun e => e ≠ .Utf8 && e ≠ last_encoding)
  else
    .Utf8 :: DEFAULT_ORDER.drop 1

/-- Registry state after a sequence of recorded selections, starting
from the initial state `AtomicU8::new(0)`. -/
def applySels (sels : List PaneEncoding) : Nat :=
  sels.foldl (fun st e => set_last_selected e st) 0

/-- Well-formed control sequences, as enumerated by claim C2: CSI
introduced by `ESC [` or by the single byte `0x9B` and ended by a final
byte in `0x40`..`0x7E`; OSC ended by BEL; OSC ended by `ESC \`; DCS
ended by `ESC \`. -/
inductive WfCtrlSeq : List Nat → Prop where
  | csi (body : List Nat) (fin : Nat)
      (hbody : ∀ b ∈ body, ¬(0x40 ≤ b ∧ b ≤ 0x7e))
      (hfin : 0x40 ≤ fin ∧ fin ≤ 0x7e) :
      WfCtrlSeq (0x1b :: 0x5b :: (body ++ [fin]))
  | csi9b (body : List Nat) (fin : Nat)
      (hbody : ∀ b ∈ body, ¬(0x40 ≤ b ∧ b ≤ 0x7e))
      (hfin : 0x40 ≤ fin ∧ fin ≤ 0x7e) :
      WfCtrlSeq (0x9b :: (body ++ [fin]))
  | oscBel (body : List Nat)
      (hbody : ∀ b ∈ body, b ≠ 0x07 ∧ b ≠ 0x1b) :
      WfCtrlSeq (0x1b :: 0x5d :: (body ++ [0x07]))
  | oscSt (body : List Nat)
      (hbody : ∀ b ∈ body, b ≠ 0x07 ∧ b ≠ 0x1b) :
      WfCtrlSeq (0x1b :: 0x5d :: (body ++ [0x1b, 0x5c]))
  | dcsSt (body : List Nat)
      (hbody : ∀ b ∈ body, b ≠ 0x1b) :
      WfCtrlSeq (0x1b :: 0x50 :: (body ++ [0x1b, 0x5c]))

/-- Concatenation homomorphism of the codec's encode routine on valid
UTF-8 texts.  This holds for every supported `encoding_rs` encoder
(GBK, GB18030, Big5, EUC-KR, Shift-JIS are stateless, character by
character), and trivially for the identity pass-through. -/
def EncHom (γ : PaneEncoding → Option Codec) (enc : PaneEncoding) : Prop :=
  ∀ u v, utf8Err u = none → utf8Err v = none →
    push_encoded γ enc (u ++ v) = push_encoded γ enc u ++ push_encoded γ enc v

/-- Modelled from the spec: the Codec Table's GBK routine (provided by
`encoding_rs`, external to this repository), restricted to the byte
sequences exercised by the theorems that use it.  `0xC4 0xE3` is the
GBK encoding of 你 (UTF-8 `E4 BD A0`) — asserted by the repository's
own tests — and `0xC4` alone is a truncated unit, so the strict decoder
rejects it. -/
def gbkMini : Codec where
  decStrict := fun l =>
    match l with
    | [] => some []
    | [0xc4, 0xe3] => some [0xe4, 0xbd, 0xa0]
    | _ => none
  decLossy := fun _ => []
  encTxt := fun l =>
    match l with
    | [0xe4, 0xbd, 0xa0] => [0xc4, 0xe3]
    | _ => []

/-- Modelled from the spec: the GBK routine on streams of the invalid
byte `0xFF`.  `0xFF` is not a valid GBK byte in any position, so the
strict decoder rejects every nonempty run of it, and the lossy decoder
(per the WHATWG gb18030 decoder used by `encoding_rs`) substitutes one
U+FFFD (UTF-8 `EF BF BD`) per `0xFF` byte. -/
def gbkFF : Codec where
  decStrict := fun l => match l with | [] => some [] | _ => none
  decLossy := fun l => (l.map (fun _ => [0xef, 0xbf, 0xbd])).flatten
  encTxt := fun _ => []

/-- Modelled from the spec: the Codec Table's Shift-JIS routine
(provided by `encoding_rs`, external to this repository), restricted to
the single character 奸 U+5978 (UTF-8 `E5 A5 B8`), whose Shift-JIS
encoding is `9B 40` (JIS X 0208 row 53, lead byte 0x9B). -/
def sjisMini : Codec where
  decStrict := fun l =>
    match l with
    | [] => some []
    | [0x9b, 0x40] => some [0xe5, 0xa5, 0xb8]
    | _ => none
  decLossy := fun _ => []
  encTxt := fun l =>
    match l with
    | [0xe5, 0xa5, 0xb8] => [0x9b, 0x40]
    | _ => []

/-- Identity byte codec: decodes and encodes every byte string to
itself.  Used only to instantiate hypotheses in witnesses. -/
def idCodec : Codec where
  decStrict := fun l => some l
  decLossy := fun l => l
  encTxt := fun l => l

/-- Codec lookup mapping GBK to `gbkMini` and everything else to the
identity pass-through, mirroring the shape of `get_encoding` (which
returns `None` exactly for `Utf8`). -/
def γMini : PaneEncoding → Option Codec
  | .Gbk => some gbkMini
  | _ => none

/-- Codec lookup for the `0xFF`-stream scenario. -/
def γFF : PaneEncoding → Option Codec
  | .Gbk => some gbkFF
  | _ => none

/-- Codec lookup for the Shift-JIS scenario. -/
def γSjis : PaneEncoding → Option Codec
  | .ShiftJis => some sjisMini
  | _ => none

/-- Specification helper: the decoded text of a sequence of complete
code units, each converted by the codec's strict decoder. -/
def decUnits (c : Codec) (us : List (List Nat)) : List Nat :=
  (us.map (fun u => (c.decStrict u).getD [])).flatten

/-! ## Basic lemmas about the registry -/

theorem applySels_foldl (init : Nat) (l : List PaneEncoding) :
    l.foldl (fun st e => set_last_selected e st) init =
      match l.getLast? with
      | none => init
      | some e => e.toU8 := by
  induction l generalizing init with
  | nil => rfl
  | cons a l ih =>
    cases l with
    | nil => simp [set_last_selected, List.getLast?]
    | cons b l2 =>
      simp only [List.foldl] at *
      rw [ih]
      rfl

theorem applySels_eq (sels : List PaneEncoding) :
    applySels sels =
      match sels.getLast? with
      | none => 0
      | some e => e.toU8 := by
  unfold applySels
  exact applySels_foldl 0 sels

/-- Claim C9: for every registry state reachable by calls to
`record_selection` (`set_last_selected`), `ordered_list` puts the
identity encoding `Utf8` first; a last-recorded non-identity encoding
comes second with the remaining encodings following in the canonical
order `Utf8, Gbk, Gb18030, Big5, EucKr, ShiftJis` minus the selected
one; a last-recorded identity selection, or no recorded selection at
all, yields the canonical order unchanged; each of the 6 supported
encodings appears exactly once and the result has length 6. -/
theorem c9_menu_ordering (sels : List PaneEncoding) :
    (ordered_list (applySels sels)).length = 6 ∧
    (∀ e : PaneEncoding, (ordered_list (applySels sels)).count e = 1) ∧
    (ordered_list (applySels sels)).head? = some .Utf8 ∧
    (sels.getLast? = none → ordered_list (applySels sels) = DEFAULT_ORDER) ∧
    (∀ e, sels.getLast? = some e → e = .Utf8 →
      ordered_list (applySels sels) = DEFAULT_ORDER) ∧
    (∀ e, sels.getLast? = some e → e ≠ .Utf8 →
      ordered_list (applySels sels) =
        .Utf8 :: e :: DEFAULT_ORDER.filter (fun x => x ≠ .Utf8 && x ≠ e)) := by
  rw [applySels_eq]
  cases h : sels.getLast? with
  | none => simp only [h]; decide
  | some e => simp only [h]; cases e <;> decide

/-- Witness for C9: the spec's concrete scenario -- after recording
`Gbk`, `ordered_list` is the canonical order with `Gbk` promoted to
second position. -/
theorem c9_menu_ordering_witness :
    ordered_list (applySels [PaneEncoding.Gbk]) =
      [.Utf8, .Gbk, .Gb18030, .Big5, .EucKr, .ShiftJis] := by
  have h := (c9_menu_ordering [PaneEncoding.Gbk]).2.2.2.2.2 PaneEncoding.Gbk
    (by decide) (by decide)
  simpa using h

/-! ## C4: the escape-sequence transition table -/

/-- Claim C4: the effective per-byte state update of the decoder and
encoder loops (`begin_escape` from `Ground`, `advance_escape`
otherwise, captured by `escStep` and realised by `procStepC`) is
exactly the claimed transition table. -/
theorem c4_transition_table :
    (∀ txt (c : Core) (b : Nat), ((procStepC txt c b).1).st = escStep c.st b) ∧
    (∀ b : Nat, escStep .Ground b =
      if b = 0x1b then .Esc else if b = 0x9b then .Csi else .Ground) ∧
    (∀ b : Nat, escStep .Esc b =
      if b = 0x5b then .Csi else if b = 0x5d then .Osc else if b = 0x50 then .Dcs
      else if 0x40 ≤ b ∧ b ≤ 0x7e then .Ground else .Esc) ∧
    (∀ b : Nat, escStep .Csi b =
      if 0x40 ≤ b ∧ b ≤ 0x7e then .Ground else .Csi) ∧
    (∀ b : Nat, escStep .Osc b =
      if b = 0x07 then .Ground else if b = 0x1b then .OscEsc else .Osc) ∧
    (∀ b : Nat, escStep .OscEsc b = if b = 0x5c then .Ground else .Osc) ∧
    (∀ b : Nat, escStep .Dcs b = if b = 0x1b then .DcsEsc else .Dcs) ∧
    (∀ b : Nat, escStep .DcsEsc b = if b = 0x5c then .Ground else .Dcs) := by
  refine ⟨?_, ?_, ?_, ?_, ?_, ?_, ?_, ?_⟩
  · intro txt c b
    by_cases h1 : c.st = .Ground
    · by_cases h2 : b = 0x1b ∨ b = 0x9b
      · simp [procStepC, escStep, h1, h2, begin_escape]
      · by_cases h3 : advance_escape c.st b = .Ground <;>
          simp [procStepC, escStep, h1, h2, h3]
    · have h2 : ¬(c.st = .Ground ∧ (b = 0x1b ∨ b = 0x9b)) := by
        intro hc; exact h1 hc.1
      by_cases h3 : advance_escape c.st b = .Ground <;>
        simp [procStepC, escStep, h1, h2, h3]
  · intro b
    by_cases h1 : b = 0x1b <;> by_cases h2 : b = 0x9b <;>
      simp [escStep, begin_escape, h1, h2]
  all_goals intro b; simp [escStep, advance_escape]

/-! ## C5: reset-on-switch noninterference -/

/-- Claim C5: a `decode` or `encode` call whose encoding differs from
the instance's current encoding resets the instance before processing,
so two instances with arbitrary different pre-switch histories produce
identical results (output and full post-call state, hence also all
subsequent calls) from the switching call on: no buffered pre-switch
byte can appear in or alter post-switch output. -/
theorem c5_reset_on_switch (γ : PaneEncoding → Option Codec)
    (d1 d2 : PaneOutputDecoder) (e1 e2 : PaneInputEncoder)
    (enc : PaneEncoding) (data : List Nat)
    (hd1 : d1.encoding ≠ enc) (hd2 : d2.encoding ≠ enc)
    (he1 : e1.encoding ≠ enc) (he2 : e2.encoding ≠ enc) :
    d1.decode γ enc data = d2.decode γ enc data ∧
    e1.encode γ enc data = e2.encode γ enc data := by
  constructor
  · unfold PaneOutputDecoder.decode
    rw [if_neg hd1, if_neg hd2]
  · unfold PaneInputEncoder.encode
    rw [if_neg he1, if_neg he2]

/-- Witness for C5: a decoder that buffered a partial GBK unit and a
fresh decoder (and likewise two encoders) behave identically after a
switch to Shift-JIS. -/
theorem c5_reset_on_switch_witness :
    ((PaneOutputDecoder.mk .Gbk .Csi [0x1b, 0x5b] [0xc4]).encoding ≠ .ShiftJis ∧
     PaneOutputDecoder.init.encoding ≠ .ShiftJis ∧
     (PaneInputEncoder.mk .Gbk .Osc [0x1b, 0x5d] [0xe4]).encoding ≠ .ShiftJis ∧
     PaneInputEncoder.init.encoding ≠ .ShiftJis) ∧
    ((PaneOutputDecoder.mk .Gbk .Csi [0x1b, 0x5b] [0xc4]).decode γMini
        .ShiftJis [0x41, 0x42] =
      PaneOutputDecoder.init.decode γMini .ShiftJis [0x41, 0x42] ∧
     (PaneInputEncoder.mk .Gbk .Osc [0x1b, 0x5d] [0xe4]).encode γMini
        .ShiftJis [0x41, 0x42] =
      PaneInputEncoder.init.encode γMini .ShiftJis [0x41, 0x42]) :=
  ⟨by refine ⟨?_, ?_, ?_, ?_⟩ <;> decide,
   c5_reset_on_switch γMini _ _ _ _ .ShiftJis [0x41, 0x42]
     (by decide) (by decide) (by decide) (by decide)⟩

/-! ## C8: identity law -/

/-- Claim C8: for the identity encoding `Utf8`, both `decode` and
`encode` return the input unchanged for every instance state, and when
the instance is already in the `Utf8` encoding its state (including the
carry-over buffers) is completely untouched by the call. -/
theorem c8_identity_law (γ : PaneEncoding → Option Codec)
    (d : PaneOutputDecoder) (e : PaneInputEncoder) (data : List Nat) :
    (d.decode γ .Utf8 data).2 = data ∧
    (e.encode γ .Utf8 data).2 = data ∧
    (d.encoding = .Utf8 → (d.decode γ .Utf8 data).1 = d) ∧
    (e.encoding = .Utf8 → (e.encode γ .Utf8 data).1 = e) := by
  refine ⟨?_, ?_, ?_, ?_⟩
  · unfold PaneOutputDecoder.decode
    by_cases h : d.encoding = .Utf8 <;> simp [h]
  · unfold PaneInputEncoder.encode
    by_cases h : e.encoding = .Utf8 <;> simp [h]
  · intro h
    unfold PaneOutputDecoder.decode
    simp [h]
  · intro h
    unfold PaneInputEncoder.encode
    simp [h]

/-- Witness for C8 at a concrete instance state and input. -/
theorem c8_identity_law_witness :
    ((PaneOutputDecoder.mk .Utf8 .Ground [] [0x01]).decode γMini .Utf8
        [0x41, 0xff]).2 = [0x41, 0xff] ∧
    ((PaneOutputDecoder.mk .Utf8 .Ground [] [0x01]).encoding = .Utf8 →
      ((PaneOutputDecoder.mk .Utf8 .Ground [] [0x01]).decode γMini .Utf8
          [0x41, 0xff]).1 = PaneOutputDecoder.mk .Utf8 .Ground [] [0x01]) :=
  ⟨(c8_identity_law γMini (PaneOutputDecoder.mk .Utf8 .Ground [] [0x01])
      PaneInputEncoder.init [0x41, 0xff]).1,
   (c8_identity_law γMini (PaneOutputDecoder.mk .Utf8 .Ground [] [0x01])
      PaneInputEncoder.init [0x41, 0xff]).2.2.1⟩

/-! ## Counterexamples to C1 and C3 as stated -/

/-- Counterexample to claim C1 as stated: under GBK (modelled by
`gbkFF`, faithful to the real GBK codec on `0xFF` bytes), the input of
six `0xFF` bytes decoded in one call yields six U+FFFD replacement
characters (force-decode of a 6-byte unresolvable buffer), but fed one
byte at a time the force-decode already fires at five buffered bytes,
yielding five replacement characters with the sixth byte still
buffered: the concatenated chunked output differs from the whole-input
output. -/
theorem c1_counterexample :
    ¬ ((decodeChunks γFF PaneOutputDecoder.init .Gbk
          [[0xff], [0xff], [0xff], [0xff], [0xff], [0xff]]).2 =
        (PaneOutputDecoder.init.decode γFF .Gbk
          [0xff, 0xff, 0xff, 0xff, 0xff, 0xff]).2) := by
  decide

/-- Counterexample to claim C3 as stated: the character 奸 (U+5978,
UTF-8 `E5 A5 B8`, containing no ESC or 0x9B byte) is representable in
Shift-JIS, where it encodes as `9B 40`; `0x9B` is the single-byte CSI
introducer, so the decoder treats the encoded character as a control
sequence and passes it through verbatim instead of decoding it: the
round trip returns `9B 40`, not the original text. -/
theorem c3_counterexample :
    utf8Err [0xe5, 0xa5, 0xb8] = none ∧
    (∀ b ∈ [0xe5, 0xa5, 0xb8], b ≠ 0x1b ∧ b ≠ 0x9b) ∧
    sjisMini.decStrict (sjisMini.encTxt [0xe5, 0xa5, 0xb8]) =
      some [0xe5, 0xa5, 0xb8] ∧
    ¬ ((PaneOutputDecoder.init.decode γSjis .ShiftJis
          ((PaneInputEncoder.init.encode γSjis .ShiftJis
            [0xe5, 0xa5, 0xb8]).2)).2 = [0xe5, 0xa5, 0xb8]) := by
  refine ⟨by decide, by decide, by decide, by decide⟩

/-! ## Byte-loop lemmas -/

theorem procGo_append (txt : List Nat → List Nat → List Nat × List Nat)
    (c : Core) (a b : List Nat) :
    procGo txt c (a ++ b) =
      ((procGo txt (procGo txt c a).1 b).1,
        (procGo txt c a).2 ++ (procGo txt (procGo txt c a).1 b).2) := by
  induction a generalizing c with
  | nil => simp [procGo]
  | cons x xs ih =>
    simp only [List.cons_append, procGo, List.append_eq]
    rw [ih (procStepC txt c x).1]
    simp [List.append_assoc]

theorem procData_cons (txt : List Nat → List Nat → List Nat × List Nat)
    (c : Core) (b : Nat) (rest : List Nat) :
    procData txt c (b :: rest) =
      ((procData txt (procStepC txt c b).1 rest).1,
        (procStepC txt c b).2 ++ (procData txt (procStepC txt c b).1 rest).2) := by
  unfold procData
  simp only [procGo]
  simp [List.append_assoc]

theorem procStepC_ground_escape (txt : List Nat → List Nat → List Nat × List Nat)
    (c : Core) (b : Nat) (hst : c.st = .Ground) (hb : b = 0x1b ∨ b = 0x9b)
    (hrun : c.run = []) :
    procStepC txt c b = (⟨(begin_escape b).1, [b], c.pend, []⟩, []) := by
  unfold procStepC
  rw [if_pos ⟨hst, hb⟩, if_pos hrun]
  simp [begin_escape]

theorem procStepC_ground_flush (txt : List Nat → List Nat → List Nat × List Nat)
    (c : Core) (b : Nat) (hst : c.st = .Ground) (hb : b = 0x1b ∨ b = 0x9b)
    (hrun : c.run ≠ []) :
    procStepC txt c b =
      (⟨(begin_escape b).1, [b], (txt c.pend c.run).2, []⟩,
        (txt c.pend c.run).1) := by
  unfold procStepC
  rw [if_pos ⟨hst, hb⟩, if_neg hrun]
  simp [begin_escape]

theorem procStepC_ground_text (txt : List Nat → List Nat → List Nat × List Nat)
    (c : Core) (b : Nat) (hst : c.st = .Ground)
    (hb : ¬(b = 0x1b ∨ b = 0x9b)) :
    procStepC txt c b = (⟨.Ground, c.eb, c.pend, c.run ++ [b]⟩, []) := by
  unfold procStepC
  rw [if_neg (fun hc => hb hc.2), if_pos hst]

theorem procStepC_advance (txt : List Nat → List Nat → List Nat × List Nat)
    (c : Core) (b : Nat) (hst : c.st ≠ .Ground)
    (hst2 : advance_escape c.st b ≠ .Ground) :
    procStepC txt c b =
      (⟨advance_escape c.st b, c.eb ++ [b], c.pend, c.run⟩, []) := by
  unfold procStepC
  rw [if_neg (fun hc => hst hc.1), if_neg hst]
  simp [hst2]

theorem procStepC_complete (txt : List Nat → List Nat → List Nat × List Nat)
    (c : Core) (b : Nat) (hst : c.st ≠ .Ground)
    (hst2 : advance_escape c.st b = .Ground) :
    procStepC txt c b = (⟨.Ground, [], c.pend, []⟩, c.eb ++ [b]) := by
  unfold procStepC
  rw [if_neg (fun hc => hst hc.1), if_neg hst]
  simp [hst2]

theorem procGo_stay (txt : List Nat → List Nat → List Nat × List Nat)
    (σ : EscapeState) (eb p r body : List Nat) (hσ : σ ≠ .Ground)
    (hbody : ∀ b ∈ body, advance_escape σ b = σ) :
    procGo txt ⟨σ, eb, p, r⟩ body = (⟨σ, eb ++ body, p, r⟩, []) := by
  induction body generalizing eb with
  | nil => simp [procGo]
  | cons b bs ih =>
    have hb := hbody b (by simp)
    simp only [procGo]
    rw [procStepC_advance txt ⟨σ, eb, p, r⟩ b hσ (by rw [show (⟨σ, eb, p, r⟩ : Core).st = σ from rfl, hb]; exact hσ)]
    simp only [show (⟨σ, eb, p, r⟩ : Core).st = σ from rfl, hb]
    rw [ih (eb ++ [b]) (fun x hx => hbody x (by simp [hx]))]
    simp

theorem procFinishC_noop (txt : List Nat → List Nat → List Nat × List Nat)
    (c : Core) (h : ¬(c.st = .Ground ∧ c.run ≠ [])) :
    procFinishC txt c = (c, []) := by
  unfold procFinishC
  rw [if_neg h]

theorem escRun (txt : List Nat → List Nat → List Nat × List Nat)
    (σ : EscapeState) (eb p body : List Nat) (fin : Nat) (hσ : σ ≠ .Ground)
    (hbody : ∀ b ∈ body, advance_escape σ b = σ)
    (hfin : advance_escape σ fin = .Ground) :
    procData txt ⟨σ, eb, p, []⟩ (body ++ [fin]) =
      (⟨.Ground, [], p, []⟩, eb ++ body ++ [fin]) := by
  unfold procData
  rw [procGo_append]
  rw [procGo_stay txt σ eb p [] body hσ hbody]
  simp only [procGo]
  rw [procStepC_complete txt ⟨σ, eb ++ body, p, []⟩ fin hσ
    (by rw [show (⟨σ, eb ++ body, p, []⟩ : Core).st = σ from rfl]; exact hfin)]
  rw [procFinishC_noop txt ⟨.Ground, [], p, []⟩ (by simp)]
  simp [List.append_assoc]

theorem escRunSt (txt : List Nat → List Nat → List Nat × List Nat)
    (σ σ2 : EscapeState) (eb p body : List Nat) (hσ : σ ≠ .Ground)
    (hσ2 : σ2 ≠ .Ground)
    (hbody : ∀ b ∈ body, advance_escape σ b = σ)
    (hesc : advance_escape σ 0x1b = σ2)
    (hfin : advance_escape σ2 0x5c = .Ground) :
    procData txt ⟨σ, eb, p, []⟩ (body ++ [0x1b, 0x5c]) =
      (⟨.Ground, [], p, []⟩, eb ++ body ++ [0x1b, 0x5c]) := by
  unfold procData
  have hsplit : body ++ [0x1b, 0x5c] = body ++ ([0x1b] ++ [0x5c]) := by simp
  rw [hsplit, procGo_append]
  rw [procGo_stay txt σ eb p [] body hσ hbody]
  simp only [procGo, List.singleton_append, List.cons_append]
  rw [procStepC_advance txt ⟨σ, eb ++ body, p, []⟩ 0x1b hσ
    (by rw [show (⟨σ, eb ++ body, p, []⟩ : Core).st = σ from rfl, hesc]; exact hσ2)]
  simp only [show (⟨σ, eb ++ body, p, []⟩ : Core).st = σ from rfl, hesc]
  rw [procStepC_complete txt ⟨σ2, (eb ++ body) ++ [0x1b], p, []⟩ 0x5c hσ2
    (by rw [show (⟨σ2, (eb ++ body) ++ [0x1b], p, []⟩ : Core).st = σ2 from rfl]; exact hfin)]
  rw [procFinishC_noop txt ⟨.Ground, [], p, []⟩ (by simp)]
  simp [List.append_assoc]

theorem decode_fresh (γ : PaneEncoding → Option Codec) (enc : PaneEncoding)
    (data : List Nat) (h : enc ≠ .Utf8) :
    PaneOutputDecoder.init.decode γ enc data =
      (⟨enc, (procData (decode_text γ enc) ⟨.Ground, [], [], []⟩ data).1.st,
        (procData (decode_text γ enc) ⟨.Ground, [], [], []⟩ data).1.eb,
        (procData (decode_text γ enc) ⟨.Ground, [], [], []⟩ data).1.pend⟩,
       (procData (decode_text γ enc) ⟨.Ground, [], [], []⟩ data).2) := by
  have h2 : PaneEncoding.Utf8 ≠ enc := fun hc => h hc.symm
  simp [PaneOutputDecoder.decode, PaneOutputDecoder.init, h, h2]

theorem encode_fresh (γ : PaneEncoding → Option Codec) (enc : PaneEncoding)
    (data : List Nat) (h : enc ≠ .Utf8) :
    PaneInputEncoder.init.encode γ enc data =
      (⟨enc, (procData (encode_text γ enc) ⟨.Ground, [], [], []⟩ data).1.st,
        (procData (encode_text γ enc) ⟨.Ground, [], [], []⟩ data).1.eb,
        (procData (encode_text γ enc) ⟨.Ground, [], [], []⟩ data).1.pend⟩,
       (procData (encode_text γ enc) ⟨.Ground, [], [], []⟩ data).2) := by
  have h2 : PaneEncoding.Utf8 ≠ enc := fun hc => h hc.symm
  simp [PaneInputEncoder.encode, PaneInputEncoder.init, h, h2]

/-! ## C2: escape transparency -/

/-- Claim C2: for every legacy (non-identity) encoding and every
well-formed control sequence `s` (CSI via `ESC [` or the single byte
0x9B, OSC ended by BEL or by `ESC \`, DCS ended by `ESC \`), a fresh
`PaneOutputDecoder` returns `s` unchanged, byte for byte, whatever the
codec table is. -/
theorem c2_escape_transparency (γ : PaneEncoding → Option Codec)
    (enc : PaneEncoding) (s : List Nat) (henc : enc ≠ .Utf8)
    (hs : WfCtrlSeq s) :
    (PaneOutputDecoder.init.decode γ enc s).2 = s := by
  rw [decode_fresh γ enc s henc]
  simp only
  set txt := decode_text γ enc with htxt
  cases hs with
  | csi body fin hbody hfin =>
    rw [procData_cons]
    rw [procStepC_ground_escape txt ⟨.Ground, [], [], []⟩ 0x1b rfl (Or.inl rfl) rfl]
    rw [procData_cons]
    rw [procStepC_advance txt ⟨(begin_escape 0x1b).1, [0x1b], [], []⟩ 0x5b
      (by simp [begin_escape]) (by simp [begin_escape, advance_escape])]
    have hbe : (⟨(begin_escape 0x1b).1, [0x1b], [], []⟩ : Core) =
        (⟨.Esc, [0x1b], [], []⟩ : Core) := by simp [begin_escape]
    rw [hbe] at *
    have hadv : advance_escape (⟨.Esc, [0x1b], [], []⟩ : Core).st 0x5b = .Csi := by
      simp [advance_escape]
    rw [hadv]
    rw [escRun txt .Csi ([0x1b] ++ [0x5b]) [] body fin (by decide)
      (fun b hb => by
        simp only [advance_escape]
        rw [if_neg (hbody b hb)])
      (by simp only [advance_escape]; rw [if_pos hfin])]
    simp
  | csi9b body fin hbody hfin =>
    rw [procData_cons]
    rw [procStepC_ground_escape txt ⟨.Ground, [], [], []⟩ 0x9b rfl (Or.inr rfl) rfl]
    have hbe : (⟨(begin_escape 0x9b).1, [0x9b], [], []⟩ : Core) =
        (⟨.Csi, [0x9b], [], []⟩ : Core) := by simp [begin_escape]
    rw [hbe]
    rw [escRun txt .Csi [0x9b] [] body fin (by decide)
      (fun b hb => by
        simp only [advance_escape]
        rw [if_neg (hbody b hb)])
      (by simp only [advance_escape]; rw [if_pos hfin])]
    simp
  | oscBel body hbody =>
    rw [procData_cons]
    rw [procStepC_ground_escape txt ⟨.Ground, [], [], []⟩ 0x1b rfl (Or.inl rfl) rfl]
    rw [procData_cons]
    rw [procStepC_advance txt ⟨(begin_escape 0x1b).1, [0x1b], [], []⟩ 0x5d
      (by simp [begin_escape]) (by simp [begin_escape, advance_escape])]
    have hbe : (⟨(begin_escape 0x1b).1, [0x1b], [], []⟩ : Core) =
        (⟨.Esc, [0x1b], [], []⟩ : Core) := by simp [begin_escape]
    rw [hbe] at *
    have hadv : advance_escape (⟨.Esc, [0x1b], [], []⟩ : Core).st 0x5d = .Osc := by
      simp [advance_escape]
    rw [hadv]
    rw [escRun txt .Osc ([0x1b] ++ [0x5d]) [] body 0x07 (by decide)
      (fun b hb => by
        simp only [advance_escape]
        rw [if_neg (hbody b hb).1, if_neg (hbody b hb).2])
      (by simp [advance_escape])]
    simp
  | oscSt body hbody =>
    rw [procData_cons]
    rw [procStepC_ground_escape txt ⟨.Ground, [], [], []⟩ 0x1b rfl (Or.inl rfl) rfl]
    rw [procData_cons]
    rw [procStepC_advance txt ⟨(begin_escape 0x1b).1, [0x1b], [], []⟩ 0x5d
      (by simp [begin_escape]) (by simp [begin_escape, advance_escape])]
    have hbe : (⟨(begin_escape 0x1b).1, [0x1b], [], []⟩ : Core) =
        (⟨.Esc, [0x1b], [], []⟩ : Core) := by simp [begin_escape]
    rw [hbe] at *
    have hadv : advance_escape (⟨.Esc, [0x1b], [], []⟩ : Core).st 0x5d = .Osc := by
      simp [advance_escape]
    rw [hadv]
    rw [escRunSt txt .Osc .OscEsc ([0x1b] ++ [0x5d]) [] body (by decide) (by decide)
      (fun b hb => by
        simp only [advance_escape]
        rw [if_neg (hbody b hb).1, if_neg (hbody b hb).2])
      (by simp [advance_escape]) (by simp [advance_escape])]
    simp
  | dcsSt body hbody =>
    rw [procData_cons]
    rw [procStepC_ground_escape txt ⟨.Ground, [], [], []⟩ 0x1b rfl (Or.inl rfl) rfl]
    rw [procData_cons]
    rw [procStepC_advance txt ⟨(begin_escape 0x1b).1, [0x1b], [], []⟩ 0x50
      (by simp [begin_escape]) (by simp [begin_escape, advance_escape])]
    have hbe : (⟨(begin_escape 0x1b).1, [0x1b], [], []⟩ : Core) =
        (⟨.Esc, [0x1b], [], []⟩ : Core) := by simp [begin_escape]
    rw [hbe] at *
    have hadv : advance_escape (⟨.Esc, [0x1b], [], []⟩ : Core).st 0x50 = .Dcs := by
      simp [advance_escape]
    rw [hadv]
    rw [escRunSt txt .Dcs .DcsEsc ([0x1b] ++ [0x50]) [] body (by decide) (by decide)
      (fun b hb => by
        simp only [advance_escape]
        rw [if_neg (hbody b hb)])
      (by simp [advance_escape]) (by simp [advance_escape])]
    simp

/-- Witness for C2: the repository's own test sequence `ESC [ 3 1 m`
under GBK passes through a fresh decoder unchanged. -/
theorem c2_escape_transparency_witness :
    (PaneOutputDecoder.init.decode γMini .Gbk
      [0x1b, 0x5b, 0x33, 0x31, 0x6d]).2 = [0x1b, 0x5b, 0x33, 0x31, 0x6d] :=
  c2_escape_transparency γMini .Gbk _ (by decide)
    (WfCtrlSeq.csi [0x33, 0x31] 0x6d (by decide) (by decide))

/-! ## C6: decoder totality and bounded buffering -/

theorem decodeSearch_some_bounds (c : Codec) (pending : List Nat)
    (minP : Nat) (n : Nat) (d : List Nat) (split : Nat)
    (h : decodeSearch c pending minP n = some (d, split)) :
    minP ≤ split ∧ split ≤ n := by
  induction n with
  | zero => simp [decodeSearch] at h
  | succ k ih =>
    unfold decodeSearch at h
    by_cases hlt : k + 1 < minP
    · rw [if_pos hlt] at h; cases h
    · rw [if_neg hlt] at h
      cases hd : c.decStrict (pending.take (k + 1)) with
      | some v =>
        rw [hd] at h
        injection h with h1
        injection h1 with h2 h3
        subst h3
        exact ⟨Nat.le_of_not_lt hlt, Nat.le_refl _⟩
      | none =>
        rw [hd] at h
        have := ih h
        exact ⟨this.1, Nat.le_succ_of_le this.2⟩

theorem decodeSearch_none_of_all_fail (c : Codec) (pending : List Nat)
    (minP : Nat) (n : Nat)
    (h : ∀ k, minP ≤ k → k ≤ n → c.decStrict (pending.take k) = none) :
    decodeSearch c pending minP n = none := by
  induction n with
  | zero => simp [decodeSearch]
  | succ k ih =>
    unfold decodeSearch
    by_cases hlt : k + 1 < minP
    · rw [if_pos hlt]
    · rw [if_neg hlt]
      rw [h (k + 1) (Nat.le_of_not_lt hlt) (Nat.le_refl _)]
      exact ih (fun j hj1 hj2 => h j hj1 (Nat.le_succ_of_le hj2))

theorem decode_text_carry_bound (γ : PaneEncoding → Option Codec)
    (enc : PaneEncoding) (p i : List Nat) :
    ((decode_text γ enc p i).2).length ≤ MAX_TRAILING_ENCODED_BYTES := by
  unfold decode_text
  cases hγ : γ enc with
  | none => simp
  | some c =>
    simp only
    cases hs : decodeSearch c (p ++ i)
        (max ((p ++ i).length - MAX_TRAILING_ENCODED_BYTES) 1) (p ++ i).length with
    | some v =>
      obtain ⟨d, split⟩ := v
      have hb := decodeSearch_some_bounds c (p ++ i) _ _ d split hs
      simp only [List.length_drop]
      have h1 : (p ++ i).length - MAX_TRAILING_ENCODED_BYTES ≤ split :=
        le_trans (le_max_left _ _) hb.1
      omega
    | none =>
      by_cases hlen : (p ++ i).length ≤ MAX_TRAILING_ENCODED_BYTES
      · rw [if_pos hlen]; simpa using hlen
      · rw [if_neg hlen]; simp

theorem procStepC_pend_bound (txt : List Nat → List Nat → List Nat × List Nat)
    (htxt : ∀ p i, ((txt p i).2).length ≤ MAX_TRAILING_ENCODED_BYTES)
    (c : Core) (b : Nat) (hc : c.pend.length ≤ MAX_TRAILING_ENCODED_BYTES) :
    ((procStepC txt c b).1).pend.length ≤ MAX_TRAILING_ENCODED_BYTES := by
  unfold procStepC
  by_cases h1 : c.st = .Ground ∧ (b = 0x1b ∨ b = 0x9b)
  · rw [if_pos h1]
    by_cases h2 : c.run = []
    · simpa [h2] using hc
    · simpa [h2] using htxt c.pend c.run
  · rw [if_neg h1]
    by_cases h2 : c.st = .Ground
    · simpa [h2] using hc
    · rw [if_neg h2]
      by_cases h3 : advance_escape c.st b = .Ground <;> simp [h3, hc]

theorem procGo_pend_bound (txt : List Nat → List Nat → List Nat × List Nat)
    (htxt : ∀ p i, ((txt p i).2).length ≤ MAX_TRAILING_ENCODED_BYTES)
    (c : Core) (data : List Nat)
    (hc : c.pend.length ≤ MAX_TRAILING_ENCODED_BYTES) :
    ((procGo txt c data).1).pend.length ≤ MAX_TRAILING_ENCODED_BYTES := by
  induction data generalizing c with
  | nil => simpa [procGo] using hc
  | cons b rest ih =>
    simp only [procGo]
    exact ih (procStepC txt c b).1 (procStepC_pend_bound txt htxt c b hc)

theorem procData_pend_bound (txt : List Nat → List Nat → List Nat × List Nat)
    (htxt : ∀ p i, ((txt p i).2).length ≤ MAX_TRAILING_ENCODED_BYTES)
    (c : Core) (data : List Nat)
    (hc : c.pend.length ≤ MAX_TRAILING_ENCODED_BYTES) :
    ((procData txt c data).1).pend.length ≤ MAX_TRAILING_ENCODED_BYTES := by
  unfold procData procFinishC
  by_cases h : (procGo txt c data).1.st = .Ground ∧ (procGo txt c data).1.run ≠ []
  · simpa [h] using htxt (procGo txt c data).1.pend (procGo txt c data).1.run
  · simpa [h] using procGo_pend_bound txt htxt c data hc

/-- Claim C6: `PaneOutputDecoder::decode` is total (the model returns a
value for every input and the Rust code signals no error); within a
text run, when the carried-over bytes concatenated with the new bytes
fail to decode cleanly at every prefix length down to
`len - MAX_TRAILING_ENCODED_BYTES`, the combined buffer is kept as
carry-over exactly when it is at most 4 bytes long and otherwise
force-decoded with the lossy converter, emptying the carry-over; and
after every call the carry-over buffer holds at most 4 bytes. -/
theorem c6_bounded_buffering :
    (∀ (γ : PaneEncoding → Option Codec) (enc : PaneEncoding) (p i : List Nat),
      ((decode_text γ enc p i).2).length ≤ MAX_TRAILING_ENCODED_BYTES) ∧
    (∀ (γ : PaneEncoding → Option Codec) (enc : PaneEncoding) (c : Codec)
        (p i : List Nat), γ enc = some c →
      (∀ k, max ((p ++ i).length - MAX_TRAILING_ENCODED_BYTES) 1 ≤ k →
        k ≤ (p ++ i).length → c.decStrict ((p ++ i).take k) = none) →
      ((p ++ i).length ≤ MAX_TRAILING_ENCODED_BYTES →
        decode_text γ enc p i = ([], p ++ i)) ∧
      (MAX_TRAILING_ENCODED_BYTES < (p ++ i).length →
        decode_text γ enc p i = (c.decLossy (p ++ i), []))) ∧
    (∀ (γ : PaneEncoding → Option Codec) (d : PaneOutputDecoder)
        (enc : PaneEncoding) (data : List Nat),
      d.pending_encoded.length ≤ MAX_TRAILING_ENCODED_BYTES →
      ((d.decode γ enc data).1).pending_encoded.length ≤
        MAX_TRAILING_ENCODED_BYTES) := by
  refine ⟨decode_text_carry_bound, ?_, ?_⟩
  · intro γ enc c p i hγ hfail
    have hnone := decodeSearch_none_of_all_fail c (p ++ i)
      (max ((p ++ i).length - MAX_TRAILING_ENCODED_BYTES) 1) (p ++ i).length hfail
    constructor
    · intro hlen
      unfold decode_text
      rw [hγ]
      simp only [hnone]
      rw [if_pos hlen]
    · intro hlen
      unfold decode_text
      rw [hγ]
      simp only [hnone]
      rw [if_neg (Nat.not_le_of_lt hlen)]
  · intro γ d enc data hd
    unfold PaneOutputDecoder.decode
    by_cases h1 : d.encoding = enc
    · by_cases h2 : enc = .Utf8
      · simpa [h1, h2] using hd
      · simp only [h1, if_pos rfl, if_neg h2]
        exact procData_pend_bound _ (decode_text_carry_bound γ enc) _ data
          (by simpa [h1] using hd)
    · by_cases h2 : enc = .Utf8
      · subst h2; simp [h1]
      · simp only [if_neg h1, if_neg h2]
        exact procData_pend_bound _ (decode_text_carry_bound γ enc) _ data
          (by simp)

/-- Witness for C6 at concrete inputs: five `0xFF` bytes under GBK fail
every prefix length and are force-decoded (carry emptied), while a
single buffered `0xFF` byte is kept; a concrete `decode` call leaves at
most 4 pending bytes. -/
theorem c6_bounded_buffering_witness :
    decode_text γFF .Gbk [] [0xff, 0xff, 0xff, 0xff, 0xff] =
      (gbkFF.decLossy [0xff, 0xff, 0xff, 0xff, 0xff], []) ∧
    decode_text γFF .Gbk [] [0xff] = ([], [0xff]) ∧
    ((PaneOutputDecoder.init.decode γFF .Gbk
        [0xff, 0xff, 0xff]).1).pending_encoded.length ≤
      MAX_TRAILING_ENCODED_BYTES :=
  ⟨(c6_bounded_buffering.2.1 γFF .Gbk gbkFF [] [0xff, 0xff, 0xff, 0xff, 0xff]
      rfl (by decide)).2 (by decide),
   (c6_bounded_buffering.2.1 γFF .Gbk gbkFF [] [0xff]
      rfl (by decide)).1 (by decide),
   c6_bounded_buffering.2.2 γFF PaneOutputDecoder.init .Gbk
      [0xff, 0xff, 0xff] (by decide)⟩

/-! ## C10: escape sequences reorder around a straddled character -/

/-- Claim C10: under GBK (whose codec rejects the lone lead byte `0xC4`
and decodes `0xC4 0xE3` to 你, as the repository's tests assert), a
text run ending in the partial unit `0xC4`, followed by the complete
escape sequence `ESC [ 0 m`, followed by the trailing byte `0xE3`,
decodes to the escape sequence first and then the UTF-8 bytes of 你:
the buffered partial unit is neither flushed nor discarded at the
escape boundary but merges with the text after the escape sequence. -/
theorem c10_escape_reorders_straddled_char (γ : PaneEncoding → Option Codec)
    (c : Codec) (hγ : γ .Gbk = some c)
    (h1 : c.decStrict [0xc4] = none)
    (h2 : c.decStrict [0xc4, 0xe3] = some [0xe4, 0xbd, 0xa0]) :
    (PaneOutputDecoder.init.decode γ .Gbk
        ([0xc4] ++ [0x1b, 0x5b, 0x30, 0x6d] ++ [0xe3])).2 =
      [0x1b, 0x5b, 0x30, 0x6d] ++ [0xe4, 0xbd, 0xa0] := by
  have hdt1 : decode_text γ .Gbk [] [0xc4] = ([], [0xc4]) := by
    unfold decode_text
    rw [hγ]
    simp [decodeSearch, h1, MAX_TRAILING_ENCODED_BYTES]
  have hdt2 : decode_text γ .Gbk [0xc4] [0xe3] = ([0xe4, 0xbd, 0xa0], []) := by
    unfold decode_text
    rw [hγ]
    simp [decodeSearch, h2, MAX_TRAILING_ENCODED_BYTES]
  rw [decode_fresh γ .Gbk _ (by decide)]
  simp only
  rw [show ([0xc4] ++ [0x1b, 0x5b, 0x30, 0x6d] ++ [0xe3] : List Nat) =
    0xc4 :: 0x1b :: 0x5b :: 0x30 :: 0x6d :: [0xe3] from rfl]
  rw [procData_cons]
  rw [procStepC_ground_text (decode_text γ .Gbk) ⟨.Ground, [], [], []⟩ 0xc4
    rfl (by decide)]
  rw [procData_cons]
  rw [procStepC_ground_flush (decode_text γ .Gbk) ⟨.Ground, [], [], [] ++ [0xc4]⟩
    0x1b rfl (Or.inl rfl) (by simp)]
  simp only [show ((⟨.Ground, [], [], [] ++ [0xc4]⟩ : Core).pend) = [] from rfl,
    show ((⟨.Ground, [], [], [] ++ [0xc4]⟩ : Core).run) = [] ++ [0xc4] from rfl,
    List.nil_append, hdt1]
  rw [procData_cons]
  rw [procStepC_advance (decode_text γ .Gbk)
    ⟨(begin_escape 0x1b).1, [0x1b], [0xc4], []⟩ 0x5b
    (by simp [begin_escape]) (by simp [begin_escape, advance_escape])]
  have hbe : (⟨(begin_escape 0x1b).1, [0x1b], [0xc4], []⟩ : Core) =
      (⟨.Esc, [0x1b], [0xc4], []⟩ : Core) := by simp [begin_escape]
  rw [hbe]
  have hadv : advance_escape (⟨.Esc, [0x1b], [0xc4], []⟩ : Core).st 0x5b = .Csi := by
    simp [advance_escape]
  rw [hadv]
  rw [procData_cons]
  rw [procStepC_advance (decode_text γ .Gbk)
    ⟨.Csi, [0x1b] ++ [0x5b], [0xc4], []⟩ 0x30 (by decide) (by simp [advance_escape])]
  have hadv2 : advance_escape (⟨.Csi, [0x1b] ++ [0x5b], [0xc4], []⟩ : Core).st 0x30 =
      .Csi := by simp [advance_escape]
  rw [hadv2]
  rw [procData_cons]
  rw [procStepC_complete (decode_text γ .Gbk)
    ⟨.Csi, ([0x1b] ++ [0x5b]) ++ [0x30], [0xc4], []⟩ 0x6d (by decide)
    (by simp [advance_escape])]
  rw [procData_cons]
  rw [procStepC_ground_text (decode_text γ .Gbk) ⟨.Ground, [], [0xc4], []⟩ 0xe3
    rfl (by decide)]
  unfold procData
  simp only [procGo]
  unfold procFinishC
  rw [if_pos ⟨rfl, by simp⟩]
  simp only [show ((⟨.Ground, [], [0xc4], [] ++ [0xe3]⟩ : Core).pend) = [0xc4] from rfl,
    show ((⟨.Ground, [], [0xc4], [] ++ [0xe3]⟩ : Core).run) = [] ++ [0xe3] from rfl,
    List.nil_append, hdt2]
  simp

/-- Witness for C10 with the concrete GBK codec fragment. -/
theorem c10_escape_reorders_straddled_char_witness :
    (PaneOutputDecoder.init.decode γMini .Gbk
        ([0xc4] ++ [0x1b, 0x5b, 0x30, 0x6d] ++ [0xe3])).2 =
      [0x1b, 0x5b, 0x30, 0x6d] ++ [0xe4, 0xbd, 0xa0] :=
  c10_escape_reorders_straddled_char γMini gbkMini rfl rfl rfl

/-! ## UTF-8 validation theory -/

theorem utf8Err_master (b : Nat) (rest : List Nat) :
    (∃ n, 1 ≤ n ∧ n ≤ (b :: rest).length ∧
      (∀ tail, utf8Err ((b :: rest).take n ++ tail) =
        (utf8Err tail).map (fun p => (p.1 + n, p.2)))) ∨
    (∃ e, 1 ≤ e ∧ e ≤ (b :: rest).length ∧
      (∀ tail, utf8Err ((b :: rest) ++ tail) = some (0, some e))) ∨
    (utf8Err (b :: rest) = some (0, none) ∧ (b :: rest).length ≤ 3) := by
  by_cases h1 : b < 0x80
  · refine Or.inl ⟨1, by omega, by simp, ?_⟩
    intro tail
    conv_lhs => rw [utf8Err.eq_def]
    simp [h1]
  · by_cases h2 : b < 0xc2
    · refine Or.inr (Or.inl ⟨1, by omega, by simp, ?_⟩)
      intro tail
      conv_lhs => rw [utf8Err.eq_def]
      simp [h1, h2]
    · by_cases h3 : b < 0xe0
      · cases rest with
        | nil =>
          refine Or.inr (Or.inr ⟨?_, by simp⟩)
          conv_lhs => rw [utf8Err.eq_def]
          simp [h1, h2, h3]
        | cons c1 r1 =>
          by_cases hc : 0x80 ≤ c1 ∧ c1 ≤ 0xbf
          · refine Or.inl ⟨2, by omega, by simp, ?_⟩
            intro tail
            conv_lhs => rw [utf8Err.eq_def]
            simp [h1, h2, h3, hc]
          · refine Or.inr (Or.inl ⟨1, by omega, by simp, ?_⟩)
            intro tail
            conv_lhs => rw [utf8Err.eq_def]
            simp [h1, h2, h3, hc]
      · by_cases h4 : b < 0xf0
        · cases rest with
          | nil =>
            refine Or.inr (Or.inr ⟨?_, by simp⟩)
            conv_lhs => rw [utf8Err.eq_def]
            simp [h1, h2, h3, h4]
          | cons c1 r1 =>
            by_cases hc : (b = 0xe0 ∧ 0xa0 ≤ c1 ∧ c1 ≤ 0xbf)
                ∨ (0xe1 ≤ b ∧ b ≤ 0xec ∧ 0x80 ≤ c1 ∧ c1 ≤ 0xbf)
                ∨ (b = 0xed ∧ 0x80 ≤ c1 ∧ c1 ≤ 0x9f)
                ∨ (0xee ≤ b ∧ 0x80 ≤ c1 ∧ c1 ≤ 0xbf)
            · cases r1 with
              | nil =>
                refine Or.inr (Or.inr ⟨?_, by simp⟩)
                conv_lhs => rw [utf8Err.eq_def]
                simp [h1, h2, h3, h4, hc]
              | cons c2 r2 =>
                by_cases hc2 : 0x80 ≤ c2 ∧ c2 ≤ 0xbf
                · refine Or.inl ⟨3, by omega, by simp, ?_⟩
                  intro tail
                  conv_lhs => rw [utf8Err.eq_def]
                  simp [h1, h2, h3, h4, hc, hc2]
                · refine Or.inr (Or.inl ⟨2, by omega, by simp, ?_⟩)
                  intro tail
                  conv_lhs => rw [utf8Err.eq_def]
                  simp [h1, h2, h3, h4, hc, hc2]
            · refine Or.inr (Or.inl ⟨1, by omega, by simp, ?_⟩)
              intro tail
              conv_lhs => rw [utf8Err.eq_def]
              simp [h1, h2, h3, h4, hc]
        · by_cases h5 : b < 0xf5
          · cases rest with
            | nil =>
              refine Or.inr (Or.inr ⟨?_, by simp⟩)
              conv_lhs => rw [utf8Err.eq_def]
              simp [h1, h2, h3, h4, h5]
            | cons c1 r1 =>
              by_cases hc : (b = 0xf0 ∧ 0x90 ≤ c1 ∧ c1 ≤ 0xbf)
                  ∨ (0xf1 ≤ b ∧ b ≤ 0xf3 ∧ 0x80 ≤ c1 ∧ c1 ≤ 0xbf)
                  ∨ (b = 0xf4 ∧ 0x80 ≤ c1 ∧ c1 ≤ 0x8f)
              · cases r1 with
                | nil =>
                  refine Or.inr (Or.inr ⟨?_, by simp⟩)
                  conv_lhs => rw [utf8Err.eq_def]
                  simp [h1, h2, h3, h4, h5, hc]
                | cons c2 r2 =>
                  by_cases hc2 : 0x80 ≤ c2 ∧ c2 ≤ 0xbf
                  · cases r2 with
                    | nil =>
                      refine Or.inr (Or.inr ⟨?_, by simp⟩)
                      conv_lhs => rw [utf8Err.eq_def]
                      simp [h1, h2, h3, h4, h5, hc, hc2]
                    | cons c3 r3 =>
                      by_cases hc3 : 0x80 ≤ c3 ∧ c3 ≤ 0xbf
                      · refine Or.inl ⟨4, by omega, by simp, ?_⟩
                        intro tail
                        conv_lhs => rw [utf8Err.eq_def]
                        simp [h1, h2, h3, h4, h5, hc, hc2, hc3]
                      · refine Or.inr (Or.inl ⟨3, by omega, by simp, ?_⟩)
                        intro tail
                        conv_lhs => rw [utf8Err.eq_def]
                        simp [h1, h2, h3, h4, h5, hc, hc2, hc3]
                  · refine Or.inr (Or.inl ⟨2, by omega, by simp, ?_⟩)
                    intro tail
                    conv_lhs => rw [utf8Err.eq_def]
                    simp [h1, h2, h3, h4, h5, hc, hc2]
              · refine Or.inr (Or.inl ⟨1, by omega, by simp, ?_⟩)
                intro tail
                conv_lhs => rw [utf8Err.eq_def]
                simp [h1, h2, h3, h4, h5, hc]
          · refine Or.inr (Or.inl ⟨1, by omega, by simp, ?_⟩)
            intro tail
            conv_lhs => rw [utf8Err.eq_def]
            simp [h1, h2, h3, h4, h5]

theorem utf8Err_valid_append : ∀ (n : Nat) (x : List Nat), x.length ≤ n →
    utf8Err x = none → ∀ r, utf8Err (x ++ r) =
      (utf8Err r).map (fun p => (p.1 + x.length, p.2)) := by
  intro n
  induction n with
  | zero =>
    intro x hlen hx r
    have hx0 : x = [] := List.eq_nil_of_length_eq_zero (Nat.le_zero.mp hlen)
    subst hx0
    simp
  | succ n ih =>
    intro x hlen hx r
    cases x with
    | nil => simp
    | cons b rest =>
      rcases utf8Err_master b rest with ⟨m, hm1, hm2, heq⟩ | ⟨e, _, _, heq⟩ | ⟨heq, _⟩
      · have hx2 : utf8Err (b :: rest) =
            (utf8Err ((b :: rest).drop m)).map (fun p => (p.1 + m, p.2)) := by
          conv_lhs => rw [← List.take_append_drop m (b :: rest)]
          exact heq ((b :: rest).drop m)
        rw [hx2] at hx
        have hdrop : utf8Err ((b :: rest).drop m) = none := by
          cases hdd : utf8Err ((b :: rest).drop m) <;> simp [hdd] at hx ⊢
        have hlen2 : ((b :: rest).drop m).length ≤ n := by
          simp only [List.length_drop]
          have := List.length_cons b rest
          omega
        have hr := ih ((b :: rest).drop m) hlen2 hdrop r
        have hsplit : (b :: rest) ++ r = (b :: rest).take m ++ ((b :: rest).drop m ++ r) := by
          rw [← List.append_assoc, List.take_append_drop]
        rw [hsplit, heq ((b :: rest).drop m ++ r), hr]
        cases hur : utf8Err r with
        | none => simp
        | some p =>
          obtain ⟨p1, p2⟩ := p
          have hm2b : m ≤ rest.length + 1 := by simpa using hm2
          simp only [Option.map_some', Option.map_map, Function.comp,
            List.length_drop, List.length_cons]
          have harith : p1 + (rest.length + 1 - m) + m = p1 + (rest.length + 1) := by
            omega
          simp [harith]
      · have := heq []
        rw [List.append_nil] at this
        rw [this] at hx
        cases hx
      · rw [heq] at hx
        cases hx

theorem utf8Err_some_decomp : ∀ (n : Nat) (x : List Nat), x.length ≤ n →
    ∀ v o, utf8Err x = some (v, o) →
      utf8Err (x.take v) = none ∧ utf8Err (x.drop v) = some (0, o) ∧
        v ≤ x.length := by
  intro n
  induction n with
  | zero =>
    intro x hlen v o hx
    have hx0 : x = [] := List.eq_nil_of_length_eq_zero (Nat.le_zero.mp hlen)
    subst hx0
    cases hx
  | succ n ih =>
    intro x hlen v o hx
    cases x with
    | nil => cases hx
    | cons b rest =>
      rcases utf8Err_master b rest with ⟨m, hm1, hm2, heq⟩ | ⟨e, _, he2, heq⟩ | ⟨heq, _⟩
      · have hx2 : utf8Err (b :: rest) =
            (utf8Err ((b :: rest).drop m)).map (fun p => (p.1 + m, p.2)) := by
          conv_lhs => rw [← List.take_append_drop m (b :: rest)]
          exact heq ((b :: rest).drop m)
        rw [hx2] at hx
        cases hdd : utf8Err ((b :: rest).drop m) with
        | none => rw [hdd] at hx; cases hx
        | some q =>
          rw [hdd] at hx
          simp only [Option.map_some', Option.some_inj] at hx
          obtain ⟨v2, o2⟩ := q
          have hv : v = v2 + m := (congrArg Prod.fst hx).symm
          have ho : o = o2 := (congrArg Prod.snd hx).symm
          subst hv
          subst ho
          have hlen2 : ((b :: rest).drop m).length ≤ n := by
            simp only [List.length_drop]
            have := List.length_cons b rest
            omega
          obtain ⟨ht, hd, hvb⟩ := ih ((b :: rest).drop m) hlen2 v2 o hdd
          refine ⟨?_, ?_, ?_⟩
          · have htake : (b :: rest).take (v2 + m) =
                (b :: rest).take m ++ ((b :: rest).drop m).take v2 := by
              rw [Nat.add_comm v2 m, List.take_add]
            rw [htake, heq (((b :: rest).drop m).take v2), ht]
            rfl
          · have hdrop : (b :: rest).drop (v2 + m) =
                ((b :: rest).drop m).drop v2 := by
              rw [List.drop_drop, Nat.add_comm m v2]
            rw [hdrop, hd]
          · simp only [List.length_drop] at hvb
            omega
      · have heq0 := heq []
        rw [List.append_nil] at heq0
        rw [heq0] at hx
        injection hx with hx2
        have hv : v = 0 := (congrArg Prod.fst hx2).symm
        have ho : o = some e := (congrArg Prod.snd hx2).symm
        subst hv
        subst ho
        exact ⟨rfl, heq0, by omega⟩
      · rw [heq] at hx
        injection hx with hx2
        have hv : v = 0 := (congrArg Prod.fst hx2).symm
        have ho : o = none := (congrArg Prod.snd hx2).symm
        subst hv
        subst ho
        exact ⟨rfl, heq, by omega⟩

theorem utf8Err_invalid_append : ∀ (n : Nat) (x : List Nat), x.length ≤ n →
    ∀ v e, utf8Err x = some (v, some e) →
      1 ≤ e ∧ v + e ≤ x.length ∧
        ∀ r, utf8Err (x ++ r) = some (v, some e) := by
  intro n
  induction n with
  | zero =>
    intro x hlen v e hx
    have hx0 : x = [] := List.eq_nil_of_length_eq_zero (Nat.le_zero.mp hlen)
    subst hx0
    cases hx
  | succ n ih =>
    intro x hlen v e hx
    cases x with
    | nil => cases hx
    | cons b rest =>
      rcases utf8Err_master b rest with ⟨m, hm1, hm2, heq⟩ | ⟨e2, he1, he2, heq⟩ | ⟨heq, _⟩
      · have hx2 : utf8Err (b :: rest) =
            (utf8Err ((b :: rest).drop m)).map (fun p => (p.1 + m, p.2)) := by
          conv_lhs => rw [← List.take_append_drop m (b :: rest)]
          exact heq ((b :: rest).drop m)
        rw [hx2] at hx
        cases hdd : utf8Err ((b :: rest).drop m) with
        | none => rw [hdd] at hx; cases hx
        | some q =>
          rw [hdd] at hx
          simp only [Option.map_some', Option.some_inj] at hx
          obtain ⟨v2, o2⟩ := q
          have hv : v = v2 + m := (congrArg Prod.fst hx).symm
          have ho : o2 = some e := congrArg Prod.snd hx
          subst hv
          subst ho
          have hlen2 : ((b :: rest).drop m).length ≤ n := by
            simp only [List.length_drop]
            have := List.length_cons b rest
            omega
          obtain ⟨hee, hvb, hall⟩ := ih ((b :: rest).drop m) hlen2 v2 e hdd
          refine ⟨hee, ?_, ?_⟩
          · simp only [List.length_drop] at hvb
            omega
          · intro r
            have hsplit : (b :: rest) ++ r =
                (b :: rest).take m ++ ((b :: rest).drop m ++ r) := by
              rw [← List.append_assoc, List.take_append_drop]
            rw [hsplit, heq ((b :: rest).drop m ++ r), hall r]
            rfl
      · have heq0 := heq []
        rw [List.append_nil] at heq0
        rw [heq0] at hx
        injection hx with hx2
        have hv : v = 0 := (congrArg Prod.fst hx2).symm
        have he : e2 = e := by
          have hsnd := congrArg Prod.snd hx2
          simpa using hsnd
        subst hv
        subst he
        exact ⟨he1, by simpa using he2, heq⟩
      · rw [heq] at hx
        injection hx with hx2
        have := congrArg Prod.snd hx2
        simp at this

theorem utf8Err_incomplete_suffix (z : List Nat)
    (h : utf8Err z = some (0, none)) : z.length ≤ 3 := by
  cases z with
  | nil => cases h
  | cons b rest =>
    rcases utf8Err_master b rest with ⟨m, hm1, hm2, heq⟩ | ⟨e, _, _, heq⟩ | ⟨_, hlen⟩
    · have hx2 : utf8Err (b :: rest) =
          (utf8Err ((b :: rest).drop m)).map (fun p => (p.1 + m, p.2)) := by
        conv_lhs => rw [← List.take_append_drop m (b :: rest)]
        exact heq ((b :: rest).drop m)
      rw [hx2] at h
      cases hdd : utf8Err ((b :: rest).drop m) with
      | none => rw [hdd] at h; cases h
      | some q =>
        rw [hdd] at h
        simp only [Option.map_some', Option.some_inj] at h
        have := congrArg Prod.fst h
        simp at this
        omega
    · have heq0 := heq []
      rw [List.append_nil] at heq0
      rw [heq0] at h
      injection h with h2
      have := congrArg Prod.snd h2
      simp at this
    · exact hlen

theorem utf8Err_incomplete_append (x : List Nat) (v : Nat)
    (h : utf8Err x = some (v, none)) :
    x.length ≤ v + 3 ∧ ∀ r, utf8Err (x ++ r) =
      (utf8Err (x.drop v ++ r)).map (fun p => (p.1 + v, p.2)) := by
  obtain ⟨ht, hd, hv⟩ := utf8Err_some_decomp x.length x (Nat.le_refl _) v none h
  constructor
  · have := utf8Err_incomplete_suffix (x.drop v) hd
    simp only [List.length_drop] at this
    omega
  · intro r
    have hsplit : x ++ r = x.take v ++ (x.drop v ++ r) := by
      rw [← List.append_assoc, List.take_append_drop]
    rw [hsplit]
    have := utf8Err_valid_append (x.take v).length (x.take v) (Nat.le_refl _) ht
      (x.drop v ++ r)
    rw [this]
    have hlt : (x.take v).length = v := by
      simp [List.length_take]
      omega
    rw [hlt]

/-! ## encode_text as a stream function -/

theorem encTextLoop_cons (γ : PaneEncoding → Option Codec) (enc : PaneEncoding)
    (f : Nat) (b : Nat) (rest : List Nat) :
    encTextLoop γ enc (f + 1) (b :: rest) =
      match utf8Err (b :: rest) with
      | none => (push_encoded γ enc (b :: rest), [])
      | some (v, none) =>
          ((if 0 < v then push_encoded γ enc ((b :: rest).take v) else []),
            (b :: rest).drop v)
      | some (v, some e) =>
          ((if 0 < v then push_encoded γ enc ((b :: rest).take v) else []) ++
            0x3f :: (encTextLoop γ enc f ((b :: rest).drop (v + e))).1,
           (encTextLoop γ enc f ((b :: rest).drop (v + e))).2) := rfl

theorem encTextLoop_fuel_irrel (γ : PaneEncoding → Option Codec)
    (enc : PaneEncoding) : ∀ (k f1 f2 : Nat) (x : List Nat),
    x.length ≤ k → x.length ≤ f1 → x.length ≤ f2 →
    encTextLoop γ enc f1 x = encTextLoop γ enc f2 x := by
  intro k
  induction k with
  | zero =>
    intro f1 f2 x hk h1 h2
    have hx : x = [] := List.eq_nil_of_length_eq_zero (Nat.le_zero.mp hk)
    subst hx
    cases f1 <;> cases f2 <;> rfl
  | succ k ih =>
    intro f1 f2 x hk h1 h2
    cases x with
    | nil => cases f1 <;> cases f2 <;> rfl
    | cons b rest =>
      have hlen : (b :: rest).length = rest.length + 1 := rfl
      obtain ⟨a1, rfl⟩ : ∃ a, f1 = a + 1 := ⟨f1 - 1, by omega⟩
      obtain ⟨a2, rfl⟩ : ∃ a, f2 = a + 1 := ⟨f2 - 1, by omega⟩
      rw [encTextLoop_cons γ enc a1 b rest, encTextLoop_cons γ enc a2 b rest]
      cases hu : utf8Err (b :: rest) with
      | none => rfl
      | some p =>
        obtain ⟨v, o⟩ := p
        cases o with
        | none => rfl
        | some e =>
          obtain ⟨he1, hve, _⟩ := utf8Err_invalid_append (b :: rest).length
            (b :: rest) (Nat.le_refl _) v e hu
          rw [hlen] at hve hk
          have hrec := ih a1 a2 ((b :: rest).drop (v + e))
            (by simp only [List.length_drop, hlen]; omega)
            (by simp only [List.length_drop, hlen]; omega)
            (by simp only [List.length_drop, hlen]; omega)
          simp only [hrec]

theorem encTextLoop_eq_ET (γ : PaneEncoding → Option Codec)
    (enc : PaneEncoding) (f : Nat) (y : List Nat) (hf : y.length ≤ f) :
    encTextLoop γ enc f y = encode_text γ enc [] y :=
  encTextLoop_fuel_irrel γ enc y.length f y.length y (Nat.le_refl _) hf
    (Nat.le_refl _)

theorem encode_text_pending (γ : PaneEncoding → Option Codec)
    (enc : PaneEncoding) (p t : List Nat) :
    encode_text γ enc p t = encode_text γ enc [] (p ++ t) := rfl

theorem encode_text_unfold (γ : PaneEncoding → Option Codec)
    (enc : PaneEncoding) (b : Nat) (rest : List Nat) :
    encode_text γ enc [] (b :: rest) =
      match utf8Err (b :: rest) with
      | none => (push_encoded γ enc (b :: rest), [])
      | some (v, none) =>
          ((if 0 < v then push_encoded γ enc ((b :: rest).take v) else []),
            (b :: rest).drop v)
      | some (v, some e) =>
          ((if 0 < v then push_encoded γ enc ((b :: rest).take v) else []) ++
            0x3f :: (encTextLoop γ enc rest.length ((b :: rest).drop (v + e))).1,
           (encTextLoop γ enc rest.length ((b :: rest).drop (v + e))).2) :=
  encTextLoop_cons γ enc rest.length b rest

theorem encode_text_nil (γ : PaneEncoding → Option Codec) (enc : PaneEncoding) :
    encode_text γ enc [] [] = ([], []) := rfl

theorem push_encoded_nil (γ : PaneEncoding → Option Codec) (enc : PaneEncoding)
    (hom : EncHom γ enc) : push_encoded γ enc [] = [] := by
  have h := hom [] [] rfl rfl
  have hlen := congrArg List.length h
  simp only [List.nil_append, List.length_append] at hlen
  have : (push_encoded γ enc []).length = 0 := by omega
  exact List.eq_nil_of_length_eq_zero this

theorem ET_none (γ : PaneEncoding → Option Codec) (enc : PaneEncoding)
    (y : List Nat) (hy : y ≠ []) (h : utf8Err y = none) :
    encode_text γ enc [] y = (push_encoded γ enc y, []) := by
  cases y with
  | nil => cases hy rfl
  | cons c rest =>
    rw [encode_text_unfold, h]

theorem ET_incomplete (γ : PaneEncoding → Option Codec) (enc : PaneEncoding)
    (y : List Nat) (v : Nat) (h : utf8Err y = some (v, none)) :
    encode_text γ enc [] y =
      ((if 0 < v then push_encoded γ enc (y.take v) else []), y.drop v) := by
  cases y with
  | nil => cases h
  | cons c rest =>
    rw [encode_text_unfold, h]

theorem ET_invalid (γ : PaneEncoding → Option Codec) (enc : PaneEncoding)
    (y : List Nat) (v e : Nat) (h : utf8Err y = some (v, some e)) :
    encode_text γ enc [] y =
      ((if 0 < v then push_encoded γ enc (y.take v) else []) ++
        0x3f :: (encode_text γ enc [] (y.drop (v + e))).1,
       (encode_text γ enc [] (y.drop (v + e))).2) := by
  cases y with
  | nil => cases h
  | cons c rest =>
    rw [encode_text_unfold, h]
    dsimp only
    obtain ⟨he1, hve, _⟩ := utf8Err_invalid_append (c :: rest).length (c :: rest)
      (Nat.le_refl _) v e h
    have hfl : ((c :: rest).drop (v + e)).length ≤ rest.length := by
      simp only [List.length_drop, List.length_cons] at *
      omega
    rw [encTextLoop_eq_ET γ enc rest.length ((c :: rest).drop (v + e)) hfl]

theorem take_shift (u z : List Nat) (w : Nat) :
    (u ++ z).take (w + u.length) = u ++ z.take w := by
  rw [Nat.add_comm, List.take_append]

theorem drop_shift (u z : List Nat) (w : Nat) :
    (u ++ z).drop (w + u.length) = z.drop w := by
  rw [Nat.add_comm, List.drop_append]

theorem if_pe_take (γ : PaneEncoding → Option Codec) (enc : PaneEncoding)
    (hom : EncHom γ enc) (l : List Nat) (n : Nat) :
    (if 0 < n then push_encoded γ enc (l.take n) else []) =
      push_encoded γ enc (l.take n) := by
  by_cases hn : 0 < n
  · rw [if_pos hn]
  · have hn0 : n = 0 := by omega
    subst hn0
    rw [if_neg hn, List.take_zero, push_encoded_nil γ enc hom]

theorem encode_text_comp (γ : PaneEncoding → Option Codec) (enc : PaneEncoding)
    (hom : EncHom γ enc) : ∀ (k : Nat) (x b : List Nat), x.length ≤ k →
    encode_text γ enc [] (x ++ b) =
      ((encode_text γ enc [] x).1 ++
        (encode_text γ enc [] ((encode_text γ enc [] x).2 ++ b)).1,
       (encode_text γ enc [] ((encode_text γ enc [] x).2 ++ b)).2) := by
  intro k
  induction k with
  | zero =>
    intro x b hk
    have hx : x = [] := List.eq_nil_of_length_eq_zero (Nat.le_zero.mp hk)
    subst hx
    simp [encode_text_nil]
  | succ k ih =>
    intro x b hk
    cases x with
    | nil => simp [encode_text_nil]
    | cons c rest =>
      cases hx : utf8Err (c :: rest) with
      | none =>
        have hETx := ET_none γ enc (c :: rest) (by simp) hx
        have hva := utf8Err_valid_append (c :: rest).length (c :: rest)
          (Nat.le_refl _) hx b
        rw [hETx]
        dsimp only
        rw [List.nil_append]
        cases hub : utf8Err b with
        | none =>
          by_cases hbnil : b = []
          · subst hbnil
            rw [List.append_nil, hETx, encode_text_nil]
            simp
          · have hETb := ET_none γ enc b hbnil hub
            have hxbv : utf8Err ((c :: rest) ++ b) = none := by
              rw [hva, hub]; rfl
            have hETxb := ET_none γ enc ((c :: rest) ++ b) (by simp) hxbv
            rw [hETxb, hETb]
            dsimp only
            rw [hom (c :: rest) b hx hub]
        | some q =>
          obtain ⟨w, o2⟩ := q
          have hbnil : b ≠ [] := by
            intro hb
            rw [hb] at hub
            exact Option.noConfusion hub
          have htw : utf8Err (b.take w) = none :=
            (utf8Err_some_decomp b.length b (Nat.le_refl _) w o2 hub).1
          cases o2 with
          | none =>
            have hETb := ET_incomplete γ enc b w hub
            have hxbe : utf8Err ((c :: rest) ++ b) =
                some (w + (c :: rest).length, none) := by
              rw [hva, hub]; rfl
            have hETxb := ET_incomplete γ enc ((c :: rest) ++ b)
              (w + (c :: rest).length) hxbe
            rw [hETxb, hETb]
            dsimp only
            refine Prod.ext ?_ ?_
            · dsimp only
              rw [if_pe_take γ enc hom, if_pe_take γ enc hom,
                take_shift (c :: rest) b w, hom (c :: rest) (b.take w) hx htw]
            · dsimp only
              rw [drop_shift (c :: rest) b w]
          | some ε =>
            have hETb := ET_invalid γ enc b w ε hub
            have hxbe : utf8Err ((c :: rest) ++ b) =
                some (w + (c :: rest).length, some ε) := by
              rw [hva, hub]; rfl
            have hETxb := ET_invalid γ enc ((c :: rest) ++ b)
              (w + (c :: rest).length) ε hxbe
            rw [hETxb, hETb]
            dsimp only
            have hdropeq : ((c :: rest) ++ b).drop (w + (c :: rest).length + ε) =
                b.drop (w + ε) := by
              rw [show w + (c :: rest).length + ε = (w + ε) + (c :: rest).length
                from by omega, drop_shift]
            rw [hdropeq]
            refine Prod.ext ?_ ?_
            · dsimp only
              rw [if_pe_take γ enc hom, if_pe_take γ enc hom,
                take_shift (c :: rest) b w, hom (c :: rest) (b.take w) hx htw]
              simp [List.append_assoc]
            · rfl
      | some p =>
        obtain ⟨v, o⟩ := p
        cases o with
        | none =>
          obtain ⟨ht, hd, hvlen⟩ := utf8Err_some_decomp (c :: rest).length
            (c :: rest) (Nat.le_refl _) v none hx
          obtain ⟨_, hir⟩ := utf8Err_incomplete_append (c :: rest) v hx
          have hETx := ET_incomplete γ enc (c :: rest) v hx
          rw [hETx]
          dsimp only
          have hzne : (c :: rest).drop v ≠ [] := by
            intro h0
            rw [h0] at hd
            exact Option.noConfusion hd
          have hzbne : (c :: rest).drop v ++ b ≠ [] :=
            List.append_ne_nil_of_left_ne_nil hzne b
          have htklen : ((c :: rest).take v).length = v := by
            rw [List.length_take]
            have hvl2 : v ≤ rest.length + 1 := by simpa using hvlen
            omega
          have hsplitxb : (c :: rest) ++ b =
              (c :: rest).take v ++ ((c :: rest).drop v ++ b) := by
            rw [← List.append_assoc, List.take_append_drop]
          cases huz : utf8Err ((c :: rest).drop v ++ b) with
          | none =>
            have hxbv : utf8Err ((c :: rest) ++ b) = none := by
              rw [hir b, huz]; rfl
            have hETxb := ET_none γ enc ((c :: rest) ++ b) (by simp) hxbv
            have hETz := ET_none γ enc ((c :: rest).drop v ++ b) hzbne huz
            rw [hETxb, hETz]
            dsimp only
            refine Prod.ext ?_ ?_
            · dsimp only
              rw [if_pe_take γ enc hom, hsplitxb,
                hom ((c :: rest).take v) ((c :: rest).drop v ++ b) ht huz]
            · rfl
          | some q2 =>
            obtain ⟨w, o2⟩ := q2
            have htzw : utf8Err (((c :: rest).drop v ++ b).take w) = none :=
              (utf8Err_some_decomp ((c :: rest).drop v ++ b).length _
                (Nat.le_refl _) w o2 huz).1
            cases o2 with
            | none =>
              have hxbe : utf8Err ((c :: rest) ++ b) = some (w + v, none) := by
                rw [hir b, huz]; rfl
              have hETxb := ET_incomplete γ enc ((c :: rest) ++ b) (w + v) hxbe
              have hETz := ET_incomplete γ enc ((c :: rest).drop v ++ b) w huz
              rw [hETxb, hETz]
              dsimp only
              refine Prod.ext ?_ ?_
              · dsimp only
                rw [if_pe_take γ enc hom ((c :: rest) ++ b) (w + v),
                  if_pe_take γ enc hom (c :: rest) v,
                  if_pe_take γ enc hom ((c :: rest).drop v ++ b) w, hsplitxb]
                rw [show w + v = w + ((c :: rest).take v).length from by
                  rw [htklen]]
                rw [take_shift ((c :: rest).take v) ((c :: rest).drop v ++ b) w]
                rw [hom ((c :: rest).take v) (((c :: rest).drop v ++ b).take w)
                  ht htzw]
              · dsimp only
                rw [hsplitxb]
                rw [show w + v = w + ((c :: rest).take v).length from by
                  rw [htklen]]
                rw [drop_shift ((c :: rest).take v) ((c :: rest).drop v ++ b) w]
            | some ε =>
              have hxbe : utf8Err ((c :: rest) ++ b) = some (w + v, some ε) := by
                rw [hir b, huz]; rfl
              have hETxb := ET_invalid γ enc ((c :: rest) ++ b) (w + v) ε hxbe
              have hETz := ET_invalid γ enc ((c :: rest).drop v ++ b) w ε huz
              rw [hETxb, hETz]
              dsimp only
              have hdropeq : ((c :: rest) ++ b).drop (w + v + ε) =
                  ((c :: rest).drop v ++ b).drop (w + ε) := by
                rw [hsplitxb]
                rw [show w + v + ε = (w + ε) + ((c :: rest).take v).length from by
                  rw [htklen]; omega]
                rw [drop_shift ((c :: rest).take v) ((c :: rest).drop v ++ b)
                  (w + ε)]
              rw [hdropeq]
              refine Prod.ext ?_ ?_
              · dsimp only
                rw [if_pe_take γ enc hom ((c :: rest) ++ b) (w + v),
                  if_pe_take γ enc hom (c :: rest) v,
                  if_pe_take γ enc hom ((c :: rest).drop v ++ b) w, hsplitxb]
                rw [show w + v = w + ((c :: rest).take v).length from by
                  rw [htklen]]
                rw [take_shift ((c :: rest).take v) ((c :: rest).drop v ++ b) w]
                rw [hom ((c :: rest).take v) (((c :: rest).drop v ++ b).take w)
                  ht htzw]
                rw [List.append_assoc]
              · rfl
        | some ε =>
          obtain ⟨he1, hvel, hall⟩ := utf8Err_invalid_append (c :: rest).length
            (c :: rest) (Nat.le_refl _) v ε hx
          have hETx := ET_invalid γ enc (c :: rest) v ε hx
          have hxbe : utf8Err ((c :: rest) ++ b) = some (v, some ε) := hall b
          have hETxb := ET_invalid γ enc ((c :: rest) ++ b) v ε hxbe
          rw [hETxb, hETx]
          dsimp only
          have htkeq : ((c :: rest) ++ b).take v = (c :: rest).take v :=
            List.take_append_of_le_length (by omega)
          have hdpeq : ((c :: rest) ++ b).drop (v + ε) =
              (c :: rest).drop (v + ε) ++ b :=
            List.drop_append_of_le_length hvel
          rw [htkeq, hdpeq]
          have hih := ih ((c :: rest).drop (v + ε)) b (by
            simp only [List.length_drop, List.length_cons]
            simp only [List.length_cons] at hk
            omega)
          rw [hih]
          dsimp only
          refine Prod.ext ?_ ?_
          · dsimp only
            simp [List.append_assoc]
          · rfl

/-! ## Chunk composition of the byte loop -/

theorem procStepC_inv (txt : List Nat → List Nat → List Nat × List Nat)
    (c : Core) (b : Nat) (h : c.st ≠ .Ground → c.run = []) :
    (procStepC txt c b).1.st ≠ .Ground → (procStepC txt c b).1.run = [] := by
  unfold procStepC
  by_cases h1 : c.st = .Ground ∧ (b = 0x1b ∨ b = 0x9b)
  · rw [if_pos h1]
    intro
    rfl
  · rw [if_neg h1]
    by_cases h2 : c.st = .Ground
    · rw [if_pos h2]
      intro hc
      exact absurd rfl hc
    · rw [if_neg h2]
      by_cases h3 : advance_escape c.st b = .Ground
      · rw [if_pos h3]
        intro
        rfl
      · rw [if_neg h3]
        intro
        exact h h2

theorem procGo_inv (txt : List Nat → List Nat → List Nat × List Nat)
    (data : List Nat) : ∀ (c : Core), (c.st ≠ .Ground → c.run = []) →
    ((procGo txt c data).1.st ≠ .Ground → (procGo txt c data).1.run = []) := by
  induction data with
  | nil => intro c h; exact h
  | cons b rest ih =>
    intro c h
    simp only [procGo]
    exact ih (procStepC txt c b).1 (procStepC_inv txt c b h)

theorem procBridge (txt : List Nat → List Nat → List Nat × List Nat)
    (H : ∀ p a b2, a ≠ [] → b2 ≠ [] →
      txt p (a ++ b2) =
        ((txt p a).1 ++ (txt (txt p a).2 b2).1, (txt (txt p a).2 b2).2)) :
    ∀ (bs : List Nat) (eb p r ρ : List Nat), r ≠ [] →
      procData txt ⟨.Ground, eb, p, r ++ ρ⟩ bs =
        ((procData txt ⟨.Ground, eb, (txt p r).2, ρ⟩ bs).1,
          (txt p r).1 ++ (procData txt ⟨.Ground, eb, (txt p r).2, ρ⟩ bs).2) := by
  intro bs
  induction bs with
  | nil =>
    intro eb p r ρ hr
    by_cases hρ : ρ = []
    · subst hρ
      rw [List.append_nil]
      unfold procData procGo procFinishC
      simp [hr]
    · unfold procData procGo procFinishC
      simp [hr, hρ, List.append_ne_nil_of_left_ne_nil hr ρ, H p r ρ hr hρ]
  | cons x xs ih =>
    intro eb p r ρ hr
    by_cases hx : x = 0x1b ∨ x = 0x9b
    · rw [procData_cons, procData_cons]
      rw [procStepC_ground_flush txt ⟨.Ground, eb, p, r ++ ρ⟩ x rfl hx
        (List.append_ne_nil_of_left_ne_nil hr ρ)]
      by_cases hρ : ρ = []
      · subst hρ
        rw [procStepC_ground_escape txt ⟨.Ground, eb, (txt p r).2, []⟩ x rfl hx rfl]
        simp only [List.append_nil]
        simp [List.append_assoc]
      · rw [procStepC_ground_flush txt ⟨.Ground, eb, (txt p r).2, ρ⟩ x rfl hx hρ]
        simp only
        rw [H p r ρ hr hρ]
        simp [List.append_assoc]
    · rw [procData_cons, procData_cons]
      rw [procStepC_ground_text txt ⟨.Ground, eb, p, r ++ ρ⟩ x rfl hx]
      rw [procStepC_ground_text txt ⟨.Ground, eb, (txt p r).2, ρ⟩ x rfl hx]
      simp only
      rw [List.append_assoc r ρ [x]]
      rw [ih eb p r (ρ ++ [x]) hr]
      simp

theorem procData_go_split (txt : List Nat → List Nat → List Nat × List Nat)
    (c0 : Core) (a b : List Nat) :
    procData txt c0 (a ++ b) =
      ((procData txt (procGo txt c0 a).1 b).1,
        (procGo txt c0 a).2 ++ (procData txt (procGo txt c0 a).1 b).2) := by
  unfold procData
  rw [procGo_append]
  simp [List.append_assoc]

theorem procData_chunk (txt : List Nat → List Nat → List Nat × List Nat)
    (H : ∀ p a b2, a ≠ [] → b2 ≠ [] →
      txt p (a ++ b2) =
        ((txt p a).1 ++ (txt (txt p a).2 b2).1, (txt (txt p a).2 b2).2))
    (c0 : Core) (hc0 : c0.run = []) (a b : List Nat) :
    procData txt c0 (a ++ b) =
      ((procData txt ⟨(procData txt c0 a).1.st, (procData txt c0 a).1.eb,
          (procData txt c0 a).1.pend, []⟩ b).1,
        (procData txt c0 a).2 ++
          (procData txt ⟨(procData txt c0 a).1.st, (procData txt c0 a).1.eb,
            (procData txt c0 a).1.pend, []⟩ b).2) := by
  have hinv := procGo_inv txt a c0 (fun _ => hc0)
  rw [procData_go_split txt c0 a b]
  cases hA : procGo txt c0 a with
  | mk c1 outa =>
    cases c1 with
    | mk s e2 p2 r2 =>
      rw [hA] at hinv
      simp only at hinv
      have hPD : procData txt c0 a =
          ((procFinishC txt ⟨s, e2, p2, r2⟩).1,
            outa ++ (procFinishC txt ⟨s, e2, p2, r2⟩).2) := by
        unfold procData
        rw [hA]
      by_cases hfl : s = .Ground ∧ r2 ≠ []
      · obtain ⟨hs, hr2⟩ := hfl
        subst hs
        have hfin : procFinishC txt ⟨.Ground, e2, p2, r2⟩ =
            (⟨.Ground, e2, (txt p2 r2).2, []⟩, (txt p2 r2).1) := by
          unfold procFinishC
          rw [if_pos (show (⟨.Ground, e2, p2, r2⟩ : Core).st = .Ground ∧
            (⟨.Ground, e2, p2, r2⟩ : Core).run ≠ [] from ⟨rfl, hr2⟩)]
        rw [hPD, hfin]
        simp only
        have hbr := procBridge txt H b e2 p2 r2 [] hr2
        rw [List.append_nil] at hbr
        rw [hbr]
        simp [List.append_assoc]
      · have hfin : procFinishC txt ⟨s, e2, p2, r2⟩ = (⟨s, e2, p2, r2⟩, []) :=
          procFinishC_noop txt _ (by
            intro hc
            exact hfl ⟨hc.1, hc.2⟩)
        have hr2 : r2 = [] := by
          by_cases h2 : s = .Ground
          · by_cases h3 : r2 = []
            · exact h3
            · exact absurd ⟨h2, h3⟩ hfl
          · exact hinv h2
        subst hr2
        rw [hPD, hfin]
        simp

theorem encode_text_H (γ : PaneEncoding → Option Codec) (enc : PaneEncoding)
    (hom : EncHom γ enc) (p a b2 : List Nat) :
    encode_text γ enc p (a ++ b2) =
      ((encode_text γ enc p a).1 ++
        (encode_text γ enc (encode_text γ enc p a).2 b2).1,
       (encode_text γ enc (encode_text γ enc p a).2 b2).2) := by
  have h := encode_text_comp γ enc hom (p ++ a).length (p ++ a) b2 (Nat.le_refl _)
  rw [encode_text_pending γ enc p (a ++ b2), ← List.append_assoc]
  rw [h]
  rfl

theorem encode_call_state (γ : PaneEncoding → Option Codec) (enc : PaneEncoding)
    (henc : enc ≠ .Utf8) (st : EscapeState) (eb p : List Nat) (a : List Nat) :
    (⟨enc, st, eb, p⟩ : PaneInputEncoder).encode γ enc a =
      (⟨enc, (procData (encode_text γ enc) ⟨st, eb, p, []⟩ a).1.st,
        (procData (encode_text γ enc) ⟨st, eb, p, []⟩ a).1.eb,
        (procData (encode_text γ enc) ⟨st, eb, p, []⟩ a).1.pend⟩,
       (procData (encode_text γ enc) ⟨st, eb, p, []⟩ a).2) := by
  unfold PaneInputEncoder.encode
  rw [if_pos rfl, if_neg henc]

theorem encodeChunks_flatten (γ : PaneEncoding → Option Codec)
    (enc : PaneEncoding) (hom : EncHom γ enc) (henc : enc ≠ .Utf8) :
    ∀ (chunks : List (List Nat)) (st : EscapeState) (eb p : List Nat),
      encodeChunks γ ⟨enc, st, eb, p⟩ enc chunks =
        (⟨enc, (procData (encode_text γ enc) ⟨st, eb, p, []⟩
            chunks.flatten).1.st,
          (procData (encode_text γ enc) ⟨st, eb, p, []⟩ chunks.flatten).1.eb,
          (procData (encode_text γ enc) ⟨st, eb, p, []⟩ chunks.flatten).1.pend⟩,
         (procData (encode_text γ enc) ⟨st, eb, p, []⟩ chunks.flatten).2) := by
  intro chunks
  induction chunks with
  | nil =>
    intro st eb p
    simp [encodeChunks, procData, procGo, procFinishC]
  | cons a rest ih =>
    intro st eb p
    simp only [encodeChunks]
    rw [encode_call_state γ enc henc st eb p a]
    simp only
    rw [ih (procData (encode_text γ enc) ⟨st, eb, p, []⟩ a).1.st
      (procData (encode_text γ enc) ⟨st, eb, p, []⟩ a).1.eb
      (procData (encode_text γ enc) ⟨st, eb, p, []⟩ a).1.pend]
    have hch := procData_chunk (encode_text γ enc)
      (fun p2 a2 b2 _ _ => encode_text_H γ enc hom p2 a2 b2)
      ⟨st, eb, p, []⟩ rfl a rest.flatten
    rw [show (a :: rest).flatten = a ++ rest.flatten from rfl, hch]

theorem encodeChunks_utf8 (γ : PaneEncoding → Option Codec) :
    ∀ (chunks : List (List Nat)) (d : PaneInputEncoder),
      d.encoding = .Utf8 → encodeChunks γ d .Utf8 chunks = (d, chunks.flatten) := by
  intro chunks
  induction chunks with
  | nil => intro d hd; rfl
  | cons a rest ih =>
    intro d hd
    simp only [encodeChunks]
    have hcall : d.encode γ .Utf8 a = (d, a) := by
      unfold PaneInputEncoder.encode
      rw [if_pos hd, if_pos rfl]
    rw [hcall, ih d hd]
    simp

/-! ## Decoder chunk independence on escape-free valid streams -/

theorem encoder_chunk_independence (γ : PaneEncoding → Option Codec)
    (enc : PaneEncoding) (chunks : List (List Nat)) (hom : EncHom γ enc) :
    (encodeChunks γ PaneInputEncoder.init enc chunks).2 =
      (PaneInputEncoder.init.encode γ enc chunks.flatten).2 := by
  by_cases henc : enc = .Utf8
  · subst henc
    rw [encodeChunks_utf8 γ chunks PaneInputEncoder.init rfl]
    rfl
  · have hfirst : ∀ data, PaneInputEncoder.init.encode γ enc data =
        (⟨enc, .Ground, [], []⟩ : PaneInputEncoder).encode γ enc data := by
      intro data
      unfold PaneInputEncoder.encode PaneInputEncoder.init
      rw [if_neg (show ¬((⟨.Utf8, .Ground, [], []⟩ :
          PaneInputEncoder).encoding = enc) from fun hc => henc hc.symm),
        if_pos (show (⟨enc, .Ground, [], []⟩ :
          PaneInputEncoder).encoding = enc from rfl)]
    cases chunks with
    | nil =>
      rw [show (([] : List (List Nat))).flatten = [] from rfl]
      rw [hfirst []]
      rw [encode_call_state γ enc henc .Ground [] [] []]
      simp [encodeChunks, procData, procGo, procFinishC]
    | cons a rest =>
      have hLHS : encodeChunks γ PaneInputEncoder.init enc (a :: rest) =
          encodeChunks γ ⟨enc, .Ground, [], []⟩ enc (a :: rest) := by
        simp only [encodeChunks]
        rw [hfirst a]
      rw [hLHS, encodeChunks_flatten γ enc hom henc (a :: rest) .Ground [] [],
        hfirst ((a :: rest).flatten),
        encode_call_state γ enc henc .Ground [] [] ((a :: rest).flatten)]

theorem procGo_text_only (txt : List Nat → List Nat → List Nat × List Nat) :
    ∀ (data eb p r : List Nat), (∀ b ∈ data, ¬(b = 0x1b ∨ b = 0x9b)) →
    procGo txt ⟨.Ground, eb, p, r⟩ data = (⟨.Ground, eb, p, r ++ data⟩, []) := by
  intro data
  induction data with
  | nil => intro eb p r h; simp [procGo]
  | cons b rest ih =>
    intro eb p r h
    simp only [procGo]
    rw [procStepC_ground_text txt ⟨.Ground, eb, p, r⟩ b rfl (h b (by simp))]
    simp only
    rw [ih eb p (r ++ [b]) (fun x hx => h x (by simp [hx]))]
    simp

theorem decode_call_state (γ : PaneEncoding → Option Codec)
    (enc : PaneEncoding) (henc : enc ≠ .Utf8) (π data : List Nat)
    (hesc : ∀ b ∈ data, ¬(b = 0x1b ∨ b = 0x9b)) (hne : data ≠ []) :
    (⟨enc, .Ground, [], π⟩ : PaneOutputDecoder).decode γ enc data =
      (⟨enc, .Ground, [], (decode_text γ enc π data).2⟩,
        (decode_text γ enc π data).1) := by
  unfold PaneOutputDecoder.decode
  rw [if_pos rfl, if_neg henc]
  unfold procData
  rw [procGo_text_only (decode_text γ enc) data [] π [] hesc]
  simp only
  unfold procFinishC
  rw [if_pos (show (⟨.Ground, [], π, [] ++ data⟩ : Core).st = .Ground ∧
    (⟨.Ground, [], π, [] ++ data⟩ : Core).run ≠ [] from ⟨rfl, by simpa using hne⟩)]
  simp

theorem decode_call_empty (γ : PaneEncoding → Option Codec)
    (enc : PaneEncoding) (henc : enc ≠ .Utf8) (π : List Nat) :
    (⟨enc, .Ground, [], π⟩ : PaneOutputDecoder).decode γ enc [] =
      (⟨enc, .Ground, [], π⟩, []) := by
  unfold PaneOutputDecoder.decode
  rw [if_pos rfl, if_neg henc]
  simp [procData, procGo, procFinishC]

theorem decStrict_flatten (c : Codec) (Hnil : c.decStrict [] = some [])
    (Hcat : ∀ u v x y, c.decStrict u = some x → c.decStrict v = some y →
      c.decStrict (u ++ v) = some (x ++ y)) :
    ∀ us : List (List Nat), (∀ u ∈ us, (c.decStrict u).isSome) →
      c.decStrict us.flatten = some (decUnits c us) := by
  intro us
  induction us with
  | nil => intro h; simpa [decUnits] using Hnil
  | cons u us ih =>
    intro h
    obtain ⟨x, hx⟩ := Option.isSome_iff_exists.mp (h u (by simp))
    have hrec := ih (fun v hv => h v (by simp [hv]))
    have := Hcat u us.flatten x (decUnits c us) hx hrec
    simpa [decUnits, hx] using this

theorem decodeSearch_exact (c : Codec) (pending : List Nat) (minP : Nat)
    (B : Nat) (val : List Nat) (hB : c.decStrict (pending.take B) = some val)
    (hmin : minP ≤ B) (hB1 : 1 ≤ B) :
    ∀ n, B ≤ n →
      (∀ k, B < k → k ≤ n → c.decStrict (pending.take k) = none) →
      decodeSearch c pending minP n = some (val, B) := by
  intro n
  induction n with
  | zero => intro h1 _; omega
  | succ k ih =>
    intro hBn hfail
    unfold decodeSearch
    rw [if_neg (by omega)]
    by_cases hBk : B = k + 1
    · subst hBk
      rw [hB]
    · rw [hfail (k + 1) (by omega) (Nat.le_refl _)]
      exact ih (by omega) (fun j h1 h2 => hfail j h1 (by omega))

theorem getD_drop_zero (l : List (List Nat)) (k : Nat) :
    (l.drop k).getD 0 [] = l.getD k [] := by
  induction l generalizing k with
  | nil => simp
  | cons a l ih =>
    cases k with
    | zero => rfl
    | succ k2 => simp only [List.drop_succ_cons, List.getD_cons_succ]; exact ih k2

theorem seg_decomp : ∀ (us : List (List Nat)) (t M : List Nat),
    (∀ u ∈ us, u ≠ []) → M <+: us.flatten ++ t →
    ∃ k π, k ≤ us.length ∧ M = (us.take k).flatten ++ π ∧
      ((k < us.length ∧ π ≠ us.getD k [] ∧ π <+: us.getD k []) ∨
       (k = us.length ∧ π <+: t)) := by
  intro us
  induction us with
  | nil =>
    intro t M hne hM
    exact ⟨0, M, Nat.le_refl _, by simp,
      Or.inr ⟨rfl, by simpa using hM⟩⟩
  | cons u us ih =>
    intro t M hne hM
    have hbig : M <+: u ++ (us.flatten ++ t) := by
      simpa [List.append_assoc] using hM
    by_cases hlen : M.length < u.length
    · have hMu : M <+: u :=
        List.prefix_of_prefix_length_le hbig (List.prefix_append u _)
          (by omega)
      refine ⟨0, M, by omega, by simp, Or.inl ⟨by simp, ?_, by simpa using hMu⟩⟩
      intro hMe
      simp only [List.getD_cons_zero] at hMe
      rw [hMe] at hlen
      omega
    · have huM : u <+: M :=
        List.prefix_of_prefix_length_le (List.prefix_append u _) hbig
          (by omega)
      obtain ⟨M2, hM2⟩ := huM
      have hM2pre : M2 <+: us.flatten ++ t := by
        rw [← hM2] at hbig
        exact (List.prefix_append_right_inj u).mp hbig
      obtain ⟨k, π, hk, heq, hcase⟩ := ih t M2
        (fun x hx => hne x (by simp [hx])) hM2pre
      refine ⟨k + 1, π, by simpa using Nat.succ_le_succ hk, ?_, ?_⟩
      · rw [← hM2, heq]
        simp [List.append_assoc]
      · rcases hcase with ⟨h1, h2, h3⟩ | ⟨h1, h2⟩
        · exact Or.inl ⟨by simpa using Nat.succ_lt_succ h1, by simpa using h2,
            by simpa using h3⟩
        · exact Or.inr ⟨by simp [h1], h2⟩

theorem decode_text_units (γ : PaneEncoding → Option Codec)
    (enc : PaneEncoding) (c : Codec) (hγ : γ enc = some c)
    (Hnil : c.decStrict [] = some [])
    (Hcat : ∀ u v x y, c.decStrict u = some x → c.decStrict v = some y →
      c.decStrict (u ++ v) = some (x ++ y))
    (seg : List (List Nat)) (π2 π r : List Nat)
    (hcomb : π ++ r = seg.flatten ++ π2)
    (hseg : ∀ u ∈ seg, u ≠ [] ∧ (c.decStrict u).isSome)
    (hπ2len : π2.length ≤ 3)
    (hfailπ : ∀ n, 1 ≤ n → n ≤ π2.length →
      c.decStrict (seg.flatten ++ π2.take n) = none) :
    decode_text γ enc π r = (decUnits c seg, π2) := by
  unfold decode_text
  rw [hγ]
  simp only
  rw [hcomb]
  by_cases hB : seg.flatten.length = 0
  · have hsegnil : seg = [] := by
      cases seg with
      | nil => rfl
      | cons u us =>
        have hu := (hseg u (by simp)).1
        have h1 : 1 ≤ u.length := List.length_pos.mpr hu
        have h2 : (List.flatten (u :: us)).length =
            u.length + us.flatten.length := by
          simp
        omega
    subst hsegnil
    simp only [List.flatten_nil, List.nil_append]
    have hnone := decodeSearch_none_of_all_fail c π2
      (max (π2.length - MAX_TRAILING_ENCODED_BYTES) 1) π2.length
      (fun k hk1 hk2 => by
        have hk3 : 1 ≤ k := le_trans (le_max_right _ 1) hk1
        have := hfailπ k hk3 hk2
        simpa using this)
    rw [hnone]
    rw [if_pos (show π2.length ≤ MAX_TRAILING_ENCODED_BYTES by
      unfold MAX_TRAILING_ENCODED_BYTES; omega)]
    simp [decUnits]
  · have hB1 : 1 ≤ seg.flatten.length := by omega
    have hval := decStrict_flatten c Hnil Hcat seg (fun u hu => (hseg u hu).2)
    have hPlen : (seg.flatten ++ π2).length =
        seg.flatten.length + π2.length := by simp
    have hsearch := decodeSearch_exact c (seg.flatten ++ π2)
      (max ((seg.flatten ++ π2).length - MAX_TRAILING_ENCODED_BYTES) 1)
      seg.flatten.length (decUnits c seg)
      (by rw [List.take_left]; exact hval)
      (by unfold MAX_TRAILING_ENCODED_BYTES; omega)
      hB1 (seg.flatten ++ π2).length (by omega)
      (fun k hk1 hk2 => by
        have hkk : k = (k - seg.flatten.length) + seg.flatten.length := by omega
        rw [hkk, take_shift]
        exact hfailπ (k - seg.flatten.length) (by omega) (by omega))
    rw [hsearch]
    simp only
    rw [List.drop_left]

theorem decUnits_append (c : Codec) (a b : List (List Nat)) :
    decUnits c (a ++ b) = decUnits c a ++ decUnits c b := by
  simp [decUnits]

theorem decodeChunks_stream (γ : PaneEncoding → Option Codec)
    (enc : PaneEncoding) (c : Codec) (hγ : γ enc = some c)
    (henc : enc ≠ .Utf8)
    (Hnil : c.decStrict [] = some [])
    (Hcat : ∀ u v x y, c.decStrict u = some x → c.decStrict v = some y →
      c.decStrict (u ++ v) = some (x ++ y))
    (units : List (List Nat)) (t : List Nat)
    (Hu : ∀ u ∈ units, u ≠ [] ∧ u.length ≤ 4 ∧ (c.decStrict u).isSome)
    (Ht : t.length ≤ 3)
    (Hfail : ∀ i k n, i ≤ units.length → k < (units.drop i).length → 1 ≤ n →
      n < ((units.drop i).getD k []).length →
      c.decStrict (((units.drop i).take k).flatten ++
        ((units.drop i).getD k []).take n) = none)
    (Hft : ∀ i n, i ≤ units.length → 1 ≤ n → n ≤ t.length →
      c.decStrict ((units.drop i).flatten ++ t.take n) = none) :
    ∀ (chunks : List (List Nat)) (j : Nat) (π : List Nat),
      j ≤ units.length →
      ((units.drop j ≠ [] ∧ π ≠ (units.drop j).getD 0 [] ∧
          π <+: (units.drop j).getD 0 []) ∨
        (units.drop j = [] ∧ π <+: t)) →
      π ++ chunks.flatten = (units.drop j).flatten ++ t →
      (∀ b ∈ chunks.flatten, ¬(b = 0x1b ∨ b = 0x9b)) →
      (decodeChunks γ ⟨enc, .Ground, [], π⟩ enc chunks).2 =
        decUnits c (units.drop j) := by
  intro chunks
  induction chunks with
  | nil =>
    intro j π hj hinv hstream hesc
    simp only [List.flatten_nil, List.append_nil] at hstream
    rcases hinv with ⟨hne, hneq, hpre⟩ | ⟨hnil2, hpre⟩
    · exfalso
      cases hd : units.drop j with
      | nil => exact hne hd
      | cons u restu =>
        rw [hd] at hstream hneq hpre
        simp only [List.getD_cons_zero] at hneq hpre
        have hlen1 : π.length ≤ u.length := hpre.length_le
        have hlt : π.length < u.length := by
          rcases Nat.lt_or_ge π.length u.length with h | h
          · exact h
          · exact absurd (List.IsPrefix.eq_of_length hpre (by omega)) hneq
        have hll : π.length = u.length + (restu.flatten ++ t).length := by
          rw [hstream]
          simp
        omega
    · rw [hnil2]
      simp [decodeChunks, decUnits]
  | cons r rest ih =>
    intro j π hj hinv hstream hesc
    have hflat : (r :: rest).flatten = r ++ rest.flatten := rfl
    by_cases hrnil : r = []
    · subst hrnil
      simp only [decodeChunks]
      rw [decode_call_empty γ enc henc π]
      simp only
      have := ih j π hj hinv (by simpa using hstream)
        (fun b hb => hesc b (by simpa using hb))
      simpa using this
    · have hM : (π ++ r) <+: (units.drop j).flatten ++ t := by
        refine ⟨rest.flatten, ?_⟩
        rw [← hstream, hflat]
        simp [List.append_assoc]
      obtain ⟨k, π2, hk, heqM, hcase⟩ := seg_decomp (units.drop j) t (π ++ r)
        (fun u hu => (Hu u (List.mem_of_mem_drop hu)).1) hM
      have hseg : ∀ u ∈ (units.drop j).take k,
          u ≠ [] ∧ (c.decStrict u).isSome := by
        intro u hu
        have hu3 := List.mem_of_mem_drop (List.mem_of_mem_take hu)
        exact ⟨(Hu u hu3).1, (Hu u hu3).2.2⟩
      have hπ2lt : ∀ (h1 : k < (units.drop j).length),
          π2 ≠ (units.drop j).getD k [] → π2 <+: (units.drop j).getD k [] →
          π2.length < ((units.drop j).getD k []).length := by
        intro h1 h2 h3
        rcases Nat.lt_or_ge π2.length ((units.drop j).getD k []).length with h | h
        · exact h
        · exact absurd (List.IsPrefix.eq_of_length h3
            (by have := h3.length_le; omega)) h2
      have hπ2len : π2.length ≤ 3 := by
        rcases hcase with ⟨h1, h2, h3⟩ | ⟨h1, h2⟩
        · have hlt := hπ2lt h1 h2 h3
          have hmem : (units.drop j).getD k [] ∈ units := by
            rw [List.getD_eq_getElem (units.drop j) [] h1]
            exact List.mem_of_mem_drop (List.getElem_mem h1)
          have := (Hu _ hmem).2.1
          omega
        · have := h2.length_le
          omega
      have hfailπ : ∀ n, 1 ≤ n → n ≤ π2.length →
          c.decStrict (((units.drop j).take k).flatten ++ π2.take n) = none := by
        intro n hn1 hn2
        rcases hcase with ⟨h1, h2, h3⟩ | ⟨h1, h2⟩
        · have hπ2eq : π2 = ((units.drop j).getD k []).take π2.length :=
            List.prefix_iff_eq_take.mp h3
          have htk : π2.take n = ((units.drop j).getD k []).take n := by
            conv_lhs => rw [hπ2eq]
            rw [List.take_take]
            congr 1
            omega
          rw [htk]
          exact Hfail j k n hj h1 hn1 (by
            have := hπ2lt h1 h2 h3
            omega)
        · rw [h1, List.take_length (units.drop j)]
          have hπ2eq : π2 = t.take π2.length := List.prefix_iff_eq_take.mp h2
          have htk : π2.take n = t.take n := by
            conv_lhs => rw [hπ2eq]
            rw [List.take_take]
            congr 1
            omega
          rw [htk]
          exact Hft j n hj hn1 (by have := h2.length_le; omega)
      have hdt := decode_text_units γ enc c hγ Hnil Hcat
        ((units.drop j).take k) π2 π r heqM hseg hπ2len hfailπ
      simp only [decodeChunks]
      rw [decode_call_state γ enc henc π r
        (fun b hb => hesc b (by rw [hflat]; exact List.mem_append_left _ hb))
        hrnil]
      rw [hdt]
      simp only
      have hdropj : units.drop (j + k) = (units.drop j).drop k :=
        (List.drop_drop k j units).symm
      have hdlen : (units.drop j).length = units.length - j := by simp
      have hj2 : j + k ≤ units.length := by omega
      have hstream2 : π2 ++ rest.flatten = (units.drop (j + k)).flatten ++ t := by
        have h0 : (π ++ r) ++ rest.flatten = (units.drop j).flatten ++ t := by
          rw [List.append_assoc, ← hflat]
          exact hstream
        rw [heqM] at h0
        have hsplit : (units.drop j).flatten =
            ((units.drop j).take k).flatten ++ (units.drop (j + k)).flatten := by
          conv_lhs => rw [← List.take_append_drop k (units.drop j)]
          rw [List.flatten_append, hdropj]
        rw [hsplit, List.append_assoc, List.append_assoc] at h0
        exact List.append_cancel_left h0
      have hinv2 : ((units.drop (j + k)) ≠ [] ∧
          π2 ≠ (units.drop (j + k)).getD 0 [] ∧
          π2 <+: (units.drop (j + k)).getD 0 []) ∨
          ((units.drop (j + k)) = [] ∧ π2 <+: t) := by
        rcases hcase with ⟨h1, h2, h3⟩ | ⟨h1, h2⟩
        · left
          have hg0 : (units.drop (j + k)).getD 0 [] = (units.drop j).getD k [] := by
            rw [hdropj]
            exact getD_drop_zero (units.drop j) k
          refine ⟨?_, by rw [hg0]; exact h2, by rw [hg0]; exact h3⟩
          rw [hdropj]
          intro hnil
          have := congrArg List.length hnil
          simp only [List.length_drop, List.length_nil] at this
          omega
        · right
          refine ⟨?_, h2⟩
          rw [hdropj]
          have : ((units.drop j).drop k).length = 0 := by
            simp only [List.length_drop]
            omega
          exact List.eq_nil_of_length_eq_zero this
      have hesc2 : ∀ b ∈ rest.flatten, ¬(b = 0x1b ∨ b = 0x9b) := by
        intro b hb
        exact hesc b (by rw [hflat]; exact List.mem_append_right _ hb)
      rw [ih (j + k) π2 hj2 hinv2 hstream2 hesc2]
      rw [hdropj]
      conv_rhs => rw [← List.take_append_drop k (units.drop j)]
      rw [decUnits_append]

/-- Claim C1 (amended): chunk-boundary independence holds (a) for the
encoder on every input and every chunking, whenever the codec table's
encode routine is a concatenation homomorphism on valid UTF-8 (as the
`encoding_rs` encoders are), and (b) for the decoder on every chunking
of an escape-free input that is a valid encoded stream: a sequence of
complete code units (each nonempty, at most 4 bytes, strictly
decodable, with no strictly-decodable proper prefix extension) followed
by at most 3 trailing bytes of one incomplete unit.  On arbitrary
(malformed) decoder input the per-call force-decode of a full pending
buffer makes the chunking observable, as the counterexample shows. -/
theorem c1_chunk_boundary_independence
    (γ : PaneEncoding → Option Codec) (enc : PaneEncoding)
    (echunks : List (List Nat)) (hom : EncHom γ enc)
    (c : Codec) (hγ : γ enc = some c) (henc : enc ≠ .Utf8)
    (Hnil : c.decStrict [] = some [])
    (Hcat : ∀ u v x y, c.decStrict u = some x → c.decStrict v = some y →
      c.decStrict (u ++ v) = some (x ++ y))
    (units : List (List Nat)) (t : List Nat)
    (Hu : ∀ u ∈ units, u ≠ [] ∧ u.length ≤ 4 ∧ (c.decStrict u).isSome)
    (Ht : t.length ≤ 3)
    (Hfail : ∀ i k n, i ≤ units.length → k < (units.drop i).length → 1 ≤ n →
      n < ((units.drop i).getD k []).length →
      c.decStrict (((units.drop i).take k).flatten ++
        ((units.drop i).getD k []).take n) = none)
    (Hft : ∀ i n, i ≤ units.length → 1 ≤ n → n ≤ t.length →
      c.decStrict ((units.drop i).flatten ++ t.take n) = none)
    (dchunks : List (List Nat))
    (hdflat : dchunks.flatten = units.flatten ++ t)
    (hesc : ∀ b ∈ dchunks.flatten, ¬(b = 0x1b ∨ b = 0x9b)) :
    (encodeChunks γ PaneInputEncoder.init enc echunks).2 =
      (PaneInputEncoder.init.encode γ enc echunks.flatten).2 ∧
    (decodeChunks γ PaneOutputDecoder.init enc dchunks).2 =
      (PaneOutputDecoder.init.decode γ enc dchunks.flatten).2 := by
  refine ⟨encoder_chunk_independence γ enc echunks hom, ?_⟩
  have hinv0 : (units.drop 0 ≠ [] ∧
      ([] : List Nat) ≠ (units.drop 0).getD 0 [] ∧
      ([] : List Nat) <+: (units.drop 0).getD 0 []) ∨
      (units.drop 0 = [] ∧ ([] : List Nat) <+: t) := by
    cases hu : units with
    | nil => right; exact ⟨rfl, List.nil_prefix⟩
    | cons u us =>
      left
      refine ⟨by simp, ?_, List.nil_prefix⟩
      simp only [List.drop_zero, List.getD_cons_zero]
      exact fun hc => (Hu u (by rw [hu]; exact List.mem_cons_self u us)) |>.1
        hc.symm
  have hinit : ∀ data, PaneOutputDecoder.init.decode γ enc data =
      (⟨enc, .Ground, [], []⟩ : PaneOutputDecoder).decode γ enc data := by
    intro data
    unfold PaneOutputDecoder.decode PaneOutputDecoder.init
    rw [if_neg (show ¬((⟨.Utf8, .Ground, [], []⟩ :
        PaneOutputDecoder).encoding = enc) from fun hc => henc hc.symm),
      if_pos (show (⟨enc, .Ground, [], []⟩ :
        PaneOutputDecoder).encoding = enc from rfl)]
  have hL := decodeChunks_stream γ enc c hγ henc Hnil Hcat units t Hu Ht
    Hfail Hft dchunks 0 [] (Nat.zero_le _) hinv0 (by simpa using hdflat) hesc
  have hR := decodeChunks_stream γ enc c hγ henc Hnil Hcat units t Hu Ht
    Hfail Hft [dchunks.flatten] 0 [] (Nat.zero_le _) hinv0
    (by simpa using hdflat) (by simpa using hesc)
  have hLbridge : (decodeChunks γ PaneOutputDecoder.init enc dchunks).2 =
      (decodeChunks γ ⟨enc, .Ground, [], []⟩ enc dchunks).2 := by
    cases dchunks with
    | nil => rfl
    | cons a rest =>
      simp only [decodeChunks]
      rw [hinit a]
  have hsingle : (decodeChunks γ (⟨enc, .Ground, [], []⟩ : PaneOutputDecoder)
      enc [dchunks.flatten]).2 =
      ((⟨enc, .Ground, [], []⟩ : PaneOutputDecoder).decode γ enc
        dchunks.flatten).2 := by
    simp [decodeChunks]
  rw [hLbridge, hL, hinit dchunks.flatten, ← hsingle, hR]

/-- Witness for the amended claim C1: the identity codec on `Gbk`,
encoder chunks `[[0x61], [0x62]]`, and the valid one-unit stream
`[0x41]` split as a single decoder chunk. -/
theorem c1_chunk_boundary_independence_witness :
    (encodeChunks (fun _ => some idCodec) PaneInputEncoder.init .Gbk
        [[0x61], [0x62]]).2 =
      (PaneInputEncoder.init.encode (fun _ => some idCodec) .Gbk
        [[0x61], [0x62]].flatten).2 ∧
    (decodeChunks (fun _ => some idCodec) PaneOutputDecoder.init .Gbk
        [[0x41]]).2 =
      (PaneOutputDecoder.init.decode (fun _ => some idCodec) .Gbk
        [[0x41]].flatten).2 :=
  c1_chunk_boundary_independence (fun _ => some idCodec) .Gbk
    [[0x61], [0x62]] (fun _ _ _ _ => rfl) idCodec rfl (by decide) rfl
    (fun u v x y hx hy => by
      simp only [idCodec, Option.some.injEq] at hx hy ⊢
      rw [← hx, ← hy])
    [[0x41]] [] (by decide) (by decide)
    (by
      intro i k n hi hk hn1 hn2
      exfalso
      have h1 : ((List.drop i [[0x41]]).getD k []).length ≤ 1 := by
        match i with
        | 0 =>
          match k with
          | 0 => decide
          | k + 1 => simp
        | i + 1 =>
          rw [List.drop_succ_cons, List.drop_nil]
          simp
      omega)
    (by intro i n _ h1 h2; exfalso; simp at h2; omega)
    [[0x41]] rfl (by decide)

/-- Claim C3 (amended): the round trip
`decode(enc, encode(enc, text)) = text` holds, with both instances
fresh, for every legacy encoding and nonempty valid UTF-8 `text` whose
bytes are representable (the codec's strict decoder inverts its encoder
on it) provided that neither `text` nor its encoded form contains an
ESC (0x1B) or 0x9B byte.  Without the restriction on the encoded form
the claim fails: 0x9B occurs as a Shift-JIS lead byte and is swallowed
by the decoder's escape scanner, as the counterexample shows. -/
theorem c3_round_trip (γ : PaneEncoding → Option Codec) (enc : PaneEncoding)
    (c : Codec) (hγ : γ enc = some c) (henc : enc ≠ .Utf8)
    (text : List Nat) (hval : utf8Err text = none) (hne : text ≠ [])
    (hesc : ∀ b ∈ text, ¬(b = 0x1b ∨ b = 0x9b))
    (hence : ∀ b ∈ c.encTxt text, ¬(b = 0x1b ∨ b = 0x9b))
    (hdec : c.decStrict (c.encTxt text) = some text)
    (henne : c.encTxt text ≠ []) :
    (PaneOutputDecoder.init.decode γ enc
      (PaneInputEncoder.init.encode γ enc text).2).2 = text := by
  have hfirstE : PaneInputEncoder.init.encode γ enc text =
      (⟨enc, .Ground, [], []⟩ : PaneInputEncoder).encode γ enc text := by
    unfold PaneInputEncoder.encode PaneInputEncoder.init
    rw [if_neg (show ¬((⟨.Utf8, .Ground, [], []⟩ :
        PaneInputEncoder).encoding = enc) from fun hc => henc hc.symm),
      if_pos (show (⟨enc, .Ground, [], []⟩ :
        PaneInputEncoder).encoding = enc from rfl)]
  have hE : (PaneInputEncoder.init.encode γ enc text).2 = c.encTxt text := by
    rw [hfirstE, encode_call_state γ enc henc .Ground [] [] text]
    simp only
    unfold procData
    rw [procGo_text_only (encode_text γ enc) text [] [] [] hesc]
    simp only
    unfold procFinishC
    rw [if_pos (show (⟨.Ground, [], [], [] ++ text⟩ : Core).st = .Ground ∧
      (⟨.Ground, [], [], [] ++ text⟩ : Core).run ≠ []
      from ⟨rfl, by simpa using hne⟩)]
    simp only [List.nil_append]
    rw [ET_none γ enc text hne hval]
    simp [push_encoded, hγ]
  have hL : 1 ≤ (c.encTxt text).length := List.length_pos.mpr henne
  have hdt : decode_text γ enc [] (c.encTxt text) = (text, []) := by
    unfold decode_text
    rw [hγ]
    simp only [List.nil_append]
    have hsearch := decodeSearch_exact c (c.encTxt text)
      (max ((c.encTxt text).length - MAX_TRAILING_ENCODED_BYTES) 1)
      (c.encTxt text).length text
      (by rw [List.take_length (c.encTxt text)]; exact hdec)
      (by simp only [MAX_TRAILING_ENCODED_BYTES]; omega) hL
      (c.encTxt text).length (Nat.le_refl _)
      (fun k h1 h2 => absurd h2 (by omega))
    rw [hsearch]
    simp
  have hfirstD : PaneOutputDecoder.init.decode γ enc (c.encTxt text) =
      (⟨enc, .Ground, [], []⟩ : PaneOutputDecoder).decode γ enc
        (c.encTxt text) := by
    unfold PaneOutputDecoder.decode PaneOutputDecoder.init
    rw [if_neg (show ¬((⟨.Utf8, .Ground, [], []⟩ :
        PaneOutputDecoder).encoding = enc) from fun hc => henc hc.symm),
      if_pos (show (⟨enc, .Ground, [], []⟩ :
        PaneOutputDecoder).encoding = enc from rfl)]
  rw [hE, hfirstD, decode_call_state γ enc henc [] (c.encTxt text) hence henne,
    hdt]

/-- Witness for the amended claim C3: GBK and the single character 你
(UTF-8 `E4 BD A0`, GBK `C4 E3`). -/
theorem c3_round_trip_witness :
    (PaneOutputDecoder.init.decode γMini .Gbk
      (PaneInputEncoder.init.encode γMini .Gbk [0xe4, 0xbd, 0xa0]).2).2 =
      [0xe4, 0xbd, 0xa0] :=
  c3_round_trip γMini .Gbk gbkMini rfl (by decide) [0xe4, 0xbd, 0xa0]
    (by decide) (by decide) (by decide) (by decide) rfl (by decide)

/-- Claim C7: the encoder's text-run routine never aborts on invalid
UTF-8.  With `comb` the carried-over bytes followed by the new bytes:
if validation stops at offset `v` because the tail is an incomplete
continuable sequence, the valid prefix (when nonempty) is converted and
emitted and the tail is carried over; if validation reports an invalid
unit of length `e` at offset `v`, the valid prefix is converted and
emitted, a single `?` (0x3F) replaces the unit, and scanning resumes
right after it. -/
theorem c7_encoder_error_handling (γ : PaneEncoding → Option Codec)
    (enc : PaneEncoding) (pending text : List Nat) (v : Nat) :
    (utf8Err (pending ++ text) = some (v, none) →
      encode_text γ enc pending text =
        ((if 0 < v then push_encoded γ enc ((pending ++ text).take v)
            else []),
         (pending ++ text).drop v)) ∧
    (∀ e, utf8Err (pending ++ text) = some (v, some e) →
      encode_text γ enc pending text =
        ((if 0 < v then push_encoded γ enc ((pending ++ text).take v)
            else []) ++
          0x3f :: (encode_text γ enc [] ((pending ++ text).drop (v + e))).1,
         (encode_text γ enc [] ((pending ++ text).drop (v + e))).2)) :=
  ⟨fun h => ET_incomplete γ enc (pending ++ text) v h,
   fun e h => ET_invalid γ enc (pending ++ text) v e h⟩

/-- Witness for claim C7: GBK with 你 followed by a dangling lead byte
`0xE4` (incomplete: converted prefix `C4 E3`, byte carried), and 你
followed by `0xFF` (invalid: converted prefix, one `?`, scan resumes on
the empty remainder). -/
theorem c7_encoder_error_handling_witness :
    (encode_text γMini .Gbk [] [0xe4, 0xbd, 0xa0, 0xe4] =
      ((if 0 < 3 then push_encoded γMini .Gbk
          (([] ++ [0xe4, 0xbd, 0xa0, 0xe4]).take 3) else []),
       ([] ++ [0xe4, 0xbd, 0xa0, 0xe4]).drop 3)) ∧
    (encode_text γMini .Gbk [] [0xe4, 0xbd, 0xa0, 0xff] =
      ((if 0 < 3 then push_encoded γMini .Gbk
          (([] ++ [0xe4, 0xbd, 0xa0, 0xff]).take 3) else []) ++
        0x3f :: (encode_text γMini .Gbk []
          (([] ++ [0xe4, 0xbd, 0xa0, 0xff]).drop (3 + 1))).1,
       (encode_text γMini .Gbk []
         (([] ++ [0xe4, 0xbd, 0xa0, 0xff]).drop (3 + 1))).2)) :=
  ⟨(c7_encoder_error_handling γMini .Gbk [] [0xe4, 0xbd, 0xa0, 0xe4] 3).1
      (by decide),
   (c7_encoder_error_handling γMini .Gbk [] [0xe4, 0xbd, 0xa0, 0xff] 3).2 1
      (by decide)⟩
